import Mathlib

/-
Verification of the ANANSE core algorithms: a shallow embedding of
`ananse/peakpredictor.py` and `grns/interaction.py`, with theorems that
settle the specification claims about model selection, the motif
similarity graph, distance weighting and interaction aggregation.

Gene, factor, motif and region names are modelled as character lists
(`Name`), rational numbers stand in for the float values whose exact
arithmetic the claims depend on, and real numbers are used for the
logarithm/exponential based quantities.

The file is organised as definitions first (the embedding of the Python
code, plus the concrete inputs used by witnesses and counterexamples),
followed by all lemmas and theorems.
-/

namespace Ananse

/-! ## Definitions -/

/-- Names (factors, genes, motifs, locations) are character lists, so the
string surgery done by the Python code can be reasoned about directly. -/
abbrev Name := List Char

/-- The composite key `factor + "_" + gene` used as `source_target`
throughout `aggregate_binding`. -/
def stKey (f g : Name) : Name := f ++ '_' :: g

/-- Embeds `f_table["source_target"].str.replace("_.*", '')`: the regex
matches from the first underscore to the end, so the factor column is the
prefix of `source_target` before its first underscore. -/
def factorOf (st : Name) : Name := st.takeWhile (fun c => c ≠ '_')

/-- Embeds `f_table["source_target"].str.replace(".*_", '')`: the greedy
regex matches up to the last underscore, so the gene column is the suffix
of `source_target` after its last underscore. -/
def geneOf (st : Name) : Name := (st.reverse.takeWhile (fun c => c ≠ '_')).reverse

/-- One row of the `b.intersect(peaks, wo=True)` loop in
`get_gene_dataframe`: the slopped gene window (chromosome, window start,
gene name, strand) paired with an overlapping peak. -/
structure RawOverlap where
  chrom : Name
  start : Nat
  gene : Name
  strandPlus : Bool
  peak_start : Nat
  peak_end : Nat
deriving DecidableEq, Repr

/-- A row of the dataframe produced by `get_gene_dataframe`:
`[["gene", "loc", "dist"]]`. -/
structure GeneRow where
  gene : Name
  loc : Name
  dist : Nat
deriving DecidableEq, Repr

/-- The `chrom:start-end` location string built by the Python code. -/
def locName (chrom : Name) (ps pe : Nat) : Name :=
  chrom ++ ':' :: ((Nat.repr ps).data ++ '-' :: (Nat.repr pe).data)

/-- Embeds the body of the intersection loop in `get_gene_dataframe`:
`tss = f.start + up` on the plus strand (`f.start + down` otherwise),
`peak = int((peak_start + peak_end)/2)`, `dist = |tss - peak|`. -/
def geneRowOf (up down : Nat) (r : RawOverlap) : GeneRow :=
  ⟨r.gene,
   locName r.chrom r.peak_start r.peak_end,
   (((r.start + (if r.strandPlus then up else down) : Nat) : Int)
     - (((r.peak_start + r.peak_end) / 2 : Nat) : Int)).natAbs⟩

/-- Ordering on rows by the `dist` column, used by `sort_values("dist")`. -/
def distLe (a b : GeneRow) : Prop := a.dist ≤ b.dist

instance : DecidableRel distLe := fun a b => Nat.decLe a.dist b.dist

instance : IsTotal GeneRow distLe := ⟨fun a b => Nat.le_total a.dist b.dist⟩

instance : IsTrans GeneRow distLe := ⟨fun _ _ _ h1 h2 => Nat.le_trans h1 h2⟩

/-- The dedup key of `drop_duplicates(["loc", "gene"])`. -/
def grKey (r : GeneRow) : Name × Name := (r.loc, r.gene)

/-- Embeds `drop_duplicates(["loc", "gene"], keep="first")`: scan the rows
in order, keeping only the first row carrying each key. -/
def dropDupFirst (seen : List (Name × Name)) : List GeneRow → List GeneRow
  | [] => []
  | r :: rs =>
    if grKey r ∈ seen then dropDupFirst seen rs
    else r :: dropDupFirst (grKey r :: seen) rs

/-- Embeds `get_gene_dataframe`: compute per-overlap rows, sort by
distance, and keep the first occurrence of every (loc, gene) key. -/
def get_gene_dataframe (up down : Nat) (rows : List RawOverlap) : List GeneRow :=
  dropDupFirst [] (List.insertionSort distLe (rows.map (geneRowOf up down)))

/-- Concrete input for the `get_gene_dataframe` witness: one peak
overlapping the same gene through two annotation rows (two TSSs). -/
def exOverlaps : List RawOverlap :=
  [⟨['c'], 0, ['g'], true, 80, 120⟩, ⟨['c'], 95, ['g'], true, 80, 120⟩]

/-- The row kept for the duplicated key in `exOverlaps` (TSS at 100,
midpoint 100, distance 0). -/
def exKept : GeneRow := geneRowOf 100 100 (RawOverlap.mk ['c'] 0 ['g'] true 80 120)

/-- The row dropped for the duplicated key in `exOverlaps` (TSS at 195,
midpoint 100, distance 95). -/
def exDropped : GeneRow := geneRowOf 100 100 (RawOverlap.mk ['c'] 95 ['g'] true 80 120)

/-- A row of the binding table read by `aggregate_binding`
(`[["factor", "enhancer", "binding"]]`). -/
structure BindingRow where
  factor : Name
  enhancer : Name
  binding : ℚ
deriving DecidableEq

/-- A row of the promoter-overlap dataframe from `get_promoter_dataframe`
(only the columns consumed downstream: `gene` and `loc`). -/
structure PromRow where
  gene : Name
  loc : Name
deriving DecidableEq

/-- `[i.upper() for i in ...]` on a name. -/
def upperName (n : Name) : Name := n.map Char.toUpper

/-- `prom.gene = [i.upper() for i in list(prom.gene)]`. -/
def upperGeneP (r : PromRow) : PromRow := ⟨upperName r.gene, r.loc⟩

/-- `p.gene = [i.upper() for i in list(p.gene)]`. -/
def upperGeneG (r : GeneRow) : GeneRow := ⟨upperName r.gene, r.loc, r.dist⟩

/-- Embeds `ddf.merge(p, left_on="enhancer", right_on="loc")`: the inner
join of the binding table with an enhancer-gene table. -/
def joinGene (b : List BindingRow) (p : List GeneRow) : List (BindingRow × GeneRow) :=
  b.flatMap fun br => (p.filter fun gr => gr.loc == br.enhancer).map fun gr => (br, gr)

/-- Embeds `ddf.merge(prom, left_on="enhancer", right_on="loc")`. -/
def joinProm (b : List BindingRow) (pr : List PromRow) : List (BindingRow × PromRow) :=
  b.flatMap fun br => (pr.filter fun q => q.loc == br.enhancer).map fun q => (br, q)

/-- The long-range table of `aggregate_binding`: the gene overlaps are
first restricted by `p = p[p["dist"] < 99999]`, then gene names are
uppercased, then the table is joined with the binding table. -/
def longTable (b : List BindingRow) (p : List GeneRow) : List (BindingRow × GeneRow) :=
  joinGene b ((p.filter fun gr => gr.dist < 99999).map upperGeneG)

/-- The `groupby(["factor", "gene"])` key of a long-range row. -/
def pairKeyG (r : BindingRow × GeneRow) : Name × Name := (r.1.factor, r.2.gene)

/-- The `groupby(["factor", "gene"])` key of a promoter row. -/
def pairKeyP (r : BindingRow × PromRow) : Name × Name := (r.1.factor, r.2.gene)

/-- The distinct group keys of the long-range table. -/
def pairsG (t : List (BindingRow × GeneRow)) : List (Name × Name) :=
  (t.map pairKeyG).dedup

/-- The distinct group keys of the promoter table. -/
def pairsP (t : List (BindingRow × PromRow)) : List (Name × Name) :=
  (t.map pairKeyP).dedup

/-- The rows of one `groupby(["factor", "gene"])` group. -/
def groupG (t : List (BindingRow × GeneRow)) (k : Name × Name) :
    List (BindingRow × GeneRow) :=
  t.filter fun r => pairKeyG r == k

/-- The rows of one promoter group. -/
def groupP (t : List (BindingRow × PromRow)) (k : Name × Name) :
    List (BindingRow × PromRow) :=
  t.filter fun r => pairKeyP r == k

/-- Maximum of a rational column (groups are nonempty, so the default for
the empty list is never consulted). -/
def maxQ : List ℚ → ℚ
  | [] => 0
  | x :: xs => xs.foldl max x

/-- `skipna` maximum of a real column: `None` when every entry is missing,
as pandas' `max` yields NaN for an all-NaN group. -/
noncomputable def maxO (l : List (Option ℝ)) : Option ℝ :=
  match l.filterMap id with
  | [] => none
  | x :: xs => some (xs.foldl max x)

/-- `skipna` sum of a real column (pandas sums the non-missing entries,
yielding 0 for an all-missing group). -/
noncomputable def sumO (l : List (Option ℝ)) : ℝ := (l.filterMap id).sum

/-- `f_table["binding"].mean()`. -/
def meanB (t : List (BindingRow × GeneRow)) : ℚ :=
  (t.map fun r => r.1.binding).sum / (t.length : ℚ)

/-- `u = -math.log(1.0/3.0)*1e5/alpha`. -/
noncomputable def uDecay (alpha : ℝ) : ℝ := -Real.log (1 / 3) * 100000 / alpha

/-- The logistic-like decay value
`2.0*math.exp(-u*math.fabs(z)/1e5)/(1.0+math.exp(-u*math.fabs(z)/1e5))`. -/
noncomputable def logisticW (alpha : ℝ) (z : ℝ) : ℝ :=
  2 * Real.exp (-(uDecay alpha) * |z| / 100000)
    / (1 + Real.exp (-(uDecay alpha) * |z| / 100000))

/-- Embeds the concatenated weight dataframe of `aggregate_binding`:
weight 0 paired with distances `1..remove`, weight 1 with
`remove+1..keep1`, and the logistic value at `z ∈ 1..padding-keep1`
paired with distance `keep1+z` (the value column of the third piece runs
over `range(1, padding-keep1+1)` while its `dist` column runs over
`range(keep1+1, padding+1)`). -/
noncomputable def weightTable (alpha : ℝ) (padding keep1 remove : Nat) :
    List (ℝ × Nat) :=
  ((List.range' 1 remove).map fun d => ((0 : ℝ), d))
  ++ ((List.range' (remove + 1) (keep1 - remove)).map fun d => ((1 : ℝ), d))
  ++ ((List.range' 1 (padding - keep1)).map fun (z : Nat) =>
        (logisticW alpha (z : ℝ), keep1 + z))

/-- The weight merged onto a row of distance `d`
(`f_table.merge(weight, how='left', on='dist')`): the first weight-table
entry for `d`, `None` (NaN) when `d` has no entry. -/
noncomputable def weightAt (alpha : ℝ) (padding keep1 remove : Nat) (d : Nat) :
    Option ℝ :=
  ((weightTable alpha padding keep1 remove).find? fun pr => pr.2 == d).map
    fun pr => pr.1

/-- Per-row `sum_weighted_logodds`:
`log(binding / mean) * 50000 / dist` (real-field division; the float
infinity produced at `dist = 0` is outside the model and outside every
claim). -/
noncomputable def rowWLogodds (m : ℚ) (r : BindingRow × GeneRow) : ℝ :=
  Real.log ((r.1.binding / m : ℚ)) * 50000 / (r.2.dist : ℝ)

/-- Per-row `sum_logodds`: `log(binding / mean)`. -/
noncomputable def rowLogodds (m : ℚ) (r : BindingRow × GeneRow) : ℝ :=
  Real.log ((r.1.binding / m : ℚ))

/-- Per-row `sum_dist_weight = binding * weight`; missing when the
left-merged weight is missing. -/
noncomputable def rowDistWeight (alpha : ℝ) (padding keep1 remove : Nat)
    (r : BindingRow × GeneRow) : Option ℝ :=
  (weightAt alpha padding keep1 remove r.2.dist).map
    fun w => (r.1.binding : ℝ) * w

/-- The four summed columns of `f_table_sum`. -/
structure SumCols where
  sum_weighted_logodds : ℝ
  sum_logodds : ℝ
  sum_binding : ℚ
  sum_dist_weight : ℝ

/-- The two maximum columns of `f_table_max`. -/
structure MaxCols where
  max_binding : ℚ
  max_sum_dist_weight : Option ℝ

/-- `f_table.groupby(["factor","gene"]).sum()[[...]]` keyed by the
`source_target` composite string. -/
noncomputable def f_table_sum (alpha : ℝ) (padding keep1 remove : Nat)
    (t : List (BindingRow × GeneRow)) : List (Name × SumCols) :=
  (pairsG t).map fun k =>
    (stKey k.1 k.2,
     ⟨((groupG t k).map (rowWLogodds (meanB t))).sum,
      ((groupG t k).map (rowLogodds (meanB t))).sum,
      ((groupG t k).map fun r => r.1.binding).sum,
      sumO ((groupG t k).map (rowDistWeight alpha padding keep1 remove))⟩)

/-- `f_table.groupby(["factor","gene"])[["binding","sum_dist_weight"]].max()`
keyed by `source_target`. -/
noncomputable def f_table_max (alpha : ℝ) (padding keep1 remove : Nat)
    (t : List (BindingRow × GeneRow)) : List (Name × MaxCols) :=
  (pairsG t).map fun k =>
    (stKey k.1 k.2,
     ⟨maxQ ((groupG t k).map fun r => r.1.binding),
      maxO ((groupG t k).map (rowDistWeight alpha padding keep1 remove))⟩)

/-- `sum_enh = f_table.groupby(["factor","gene"])[["binding"]].count()`
renamed to `enhancers` and keyed by `source_target` (binding is never
missing, so the count is the group size). -/
def sum_enh (t : List (BindingRow × GeneRow)) : List (Name × Nat) :=
  (pairsG t).map fun k => (stKey k.1 k.2, (groupG t k).length)

/-- `prom_table`: per (factor, gene) maximum binding within the promoter
window, keyed by `source_target`. -/
def prom_table (tp : List (BindingRow × PromRow)) : List (Name × ℚ) :=
  (pairsP tp).map fun k =>
    (stKey k.1 k.2, maxQ ((groupP tp k).map fun r => r.1.binding))

/-- A pandas outer merge on a string key: every left row is emitted once
per matching right row (or once with a missing right part when nothing
matches), followed by the unmatched right rows. -/
def outerMerge {α β : Type} (l : List (Name × α)) (r : List (Name × β)) :
    List (Name × (Option α × Option β)) :=
  (l.flatMap fun ka =>
    if (r.filter fun kb => kb.1 == ka.1).isEmpty then [(ka.1, (some ka.2, none))]
    else (r.filter fun kb => kb.1 == ka.1).map fun kb =>
      (ka.1, (some ka.2, some kb.2)))
  ++ ((r.filter fun kb => !(l.any fun ka => ka.1 == kb.1)).map fun kb =>
      (kb.1, (none, some kb.2)))

/-- A row of the final feature table written by `aggregate_binding`. -/
structure AggRow where
  source_target : Name
  factor : Name
  gene : Name
  sum_weighted_logodds : Option ℝ
  sum_dist_weight : Option ℝ
  sum_logodds : Option ℝ
  sum_binding : Option ℚ
  enhancers : Option Nat
  max_binding_in_promoter : ℚ
  max_binding : Option ℚ
  max_sum_dist_weight : Option ℝ
  log_sum_binding : Option ℝ
  log_enhancers : Option ℝ

/-- The chain of outer merges of `aggregate_binding`:
sum table ⟕⟖ max table ⟕⟖ enhancer counts ⟕⟖ promoter table, all keyed
by `source_target`. -/
noncomputable def mergedTables (alpha : ℝ) (padding keep1 remove : Nat)
    (t : List (BindingRow × GeneRow)) (tp : List (BindingRow × PromRow)) :
    List (Name ×
      (Option (Option (Option SumCols × Option MaxCols) × Option Nat) × Option ℚ)) :=
  outerMerge
    (outerMerge
      (outerMerge (f_table_sum alpha padding keep1 remove t)
        (f_table_max alpha padding keep1 remove t))
      (sum_enh t))
    (prom_table tp)

/-- Converts one merged row into a final feature-table row: recompute the
`factor`/`gene` columns from `source_target` via the regex replacements,
fill missing promoter maxima with 0, and add the log-derived columns. -/
noncomputable def aggRowOf
    (kv : Name ×
      (Option (Option (Option SumCols × Option MaxCols) × Option Nat) × Option ℚ)) :
    AggRow :=
  let sc : Option SumCols := (kv.2.1.bind fun x => x.1).bind fun y => y.1
  let mc : Option MaxCols := (kv.2.1.bind fun x => x.1).bind fun y => y.2
  let enh : Option Nat := kv.2.1.bind fun x => x.2
  ⟨kv.1,
   factorOf kv.1,
   geneOf kv.1,
   sc.map fun s => s.sum_weighted_logodds,
   sc.map fun s => s.sum_dist_weight,
   sc.map fun s => s.sum_logodds,
   sc.map fun s => s.sum_binding,
   enh,
   kv.2.2.getD 0,
   mc.map fun m => m.max_binding,
   mc.bind fun m => m.max_sum_dist_weight,
   sc.map fun s => Real.log ((s.sum_binding : ℝ) + 1 / 100000),
   enh.map fun n => Real.log ((n : ℝ) + 1)⟩

/-- Embeds `aggregate_binding` (from the already-intersected overlap
tables to the final feature table): filter the long-range overlaps to
`dist < 99999`, uppercase gene names, join each overlap table with the
binding table, group-aggregate, outer-merge everything on
`source_target`, and derive the final columns. -/
noncomputable def aggregate_binding (alpha : ℝ) (padding keep1 remove : Nat)
    (b : List BindingRow) (p : List GeneRow) (prom : List PromRow) :
    List AggRow :=
  (mergedTables alpha padding keep1 remove (longTable b p)
    (joinProm b (prom.map upperGeneP))).map aggRowOf

/-- Number of final-table rows carrying a given `source_target` key. -/
def countST (k : Name) (rows : List AggRow) : Nat :=
  rows.countP fun r => r.source_target == k

/-- Number of rows of a keyed table carrying a given key. -/
def countK {α : Type} (k : Name) (l : List (Name × α)) : Nat :=
  l.countP fun x => x.1 == k

/-- Ordered combinations (`itertools.combinations(keys, 2)`): every pair
of elements at positions i < j. -/
def pairsList {α : Type} : List α → List (α × α)
  | [] => []
  | x :: xs => (xs.map fun y => (x, y)) ++ pairsList xs

/-- Embeds the edge construction of `_jaccard_motif_graph`: for every
combination of two factors, if intersection and union of their motif sets
are both nonempty, add an edge weighted `1 - jaccard`. -/
def jaccardEdges (f2m : List (String × Finset String)) :
    List (String × String × ℚ) :=
  (pairsList f2m).filterMap fun pq =>
    if ((pq.1.2 ∩ pq.2.2).card ≠ 0 ∧ (pq.1.2 ∪ pq.2.2).card ≠ 0) then
      some (pq.1.1, pq.2.1,
        1 - ((pq.1.2 ∩ pq.2.2).card : ℚ) / ((pq.1.2 ∪ pq.2.2).card : ℚ))
    else none

/-- An undirected edge between `a` and `b` with weight `w` (an
`nx.Graph` edge is orientation-free). -/
def hasEdge (es : List (String × String × ℚ)) (a b : String) (w : ℚ) : Prop :=
  (a, b, w) ∈ es ∨ (b, a, w) ∈ es

/-- Number of stored edges joining `a` and `b` in either orientation. -/
def edgeCount (es : List (String × String × ℚ)) (a b : String) : Nat :=
  es.countP fun e => (e.1 = a ∧ e.2.1 = b) ∨ (e.1 = b ∧ e.2.1 = a)

/-- The nodes of the graph spanned by an edge list (`add_edge` introduces
exactly the edge endpoints as nodes). -/
def edgeNodes (edges : List (String × String × ℚ)) : List String :=
  (edges.flatMap fun e => [e.1, e.2.1]).dedup

/-- Neighbourhood of `u` in an undirected edge list. -/
def adjOf (edges : List (String × String × ℚ)) (u : String) :
    List (String × ℚ) :=
  edges.filterMap fun e =>
    if e.1 = u then some (e.2.1, e.2.2)
    else if e.2.1 = u then some (e.1, e.2.2) else none

/-- All simple paths out of `u` avoiding `visited`, as (endpoint, path
weight) pairs; the `budget` list bounds the recursion depth by the node
count. -/
def explore (adj : String → List (String × ℚ)) :
    List String → String → List String → List (String × ℚ)
  | [], u, _ => [(u, 0)]
  | _ :: budget, u, visited =>
    (u, 0) :: (adj u).flatMap fun vw =>
      if vw.1 ∈ visited then []
      else (explore adj budget vw.1 (vw.1 :: visited)).map fun td =>
        (td.1, vw.2 + td.2)

/-- Endpoint/weight pairs of all simple paths from `src`. -/
def pathDists (edges : List (String × String × ℚ)) (src : String) :
    List (String × ℚ) :=
  explore (adjOf edges) (edgeNodes edges) src [src]

/-- Shortest weighted path distance from `src` to `v` (minimum over
simple paths), `none` when unreachable. -/
def shortestDist (edges : List (String × String × ℚ)) (src v : String) :
    Option ℚ :=
  match ((pathDists edges src).filter fun td => td.1 == v).map
      (fun td => td.2) with
  | [] => none
  | x :: xs => some (xs.foldl min x)

/-- Ordering of candidate (node, distance) pairs by distance. -/
def wLe (a b : String × ℚ) : Prop := a.2 ≤ b.2

instance : DecidableRel wLe := fun a b => Rat.instDecidableLe a.2 b.2

instance : IsTotal (String × ℚ) wLe := ⟨fun a b => le_total a.2 b.2⟩

instance : IsTrans (String × ℚ) wLe := ⟨fun _ _ _ h1 h2 => le_trans h1 h2⟩

/-- Models the contract of `nx.single_source_dijkstra_path_length(G, src,
cutoff)` at this call site: the nodes whose shortest weighted path
distance from `src` is at most `cutoff`, in increasing distance order. -/
def dijkstraCandidates (edges : List (String × String × ℚ)) (src : String)
    (cutoff : ℚ) : List (String × ℚ) :=
  List.insertionSort wLe ((edgeNodes edges).filterMap fun v =>
    match shortestDist edges src v with
    | some dv => if dv ≤ cutoff then some (v, dv) else none
    | none => none)

/-- Dictionary lookup in a model store (first binding wins, as in a
Python dict with unique keys). -/
def lookup (models : List (String × Nat)) (k : String) : Option Nat :=
  (models.find? fun kv => kv.1 == k).map fun kv => kv.2

/-- Embeds `PeakPredictor._load_model`: (1) the factor's own model if
present; (2) else, if the factor is a graph node, the model of the first
TF with a trained model among the Dijkstra candidates within cutoff
`1 - jaccard_cutoff`, visited in increasing path-weight order; (3) else
the `general` model (`none` models the `KeyError` when that key is also
absent). Models are opaque and represented by identifiers. -/
def load_model (models : List (String × Nat))
    (edges : List (String × String × ℚ)) (factor : String)
    (jaccard_cutoff : ℚ) : Option Nat :=
  match lookup models factor with
  | some m => some m
  | none =>
    match (if factor ∈ edgeNodes edges then
        (dijkstraCandidates edges factor (1 - jaccard_cutoff)).findSome?
          fun td => lookup models td.1
      else none) with
    | some m => some m
    | none => lookup models "general"

/-- The mutable state of a `PeakPredictor` relevant to model-type
resolution: which data sources are loaded, whether reference regions are
used, and the (class-level, hence persistent) model registry. -/
structure PPState where
  atacLoaded : Bool
  histoneLoaded : Bool
  referenceRegions : Bool
  modelType : String
  xColumns : List String
  factorModels : List (String × Nat)
deriving DecidableEq

/-- Lexicographic code-point comparison of character lists, the order
Python's `sorted` uses on strings. -/
def charListLeB : List Char → List Char → Bool
  | [], _ => true
  | _ :: _, [] => false
  | a :: as, b :: bs =>
    if a.toNat < b.toNat then true
    else if b.toNat < a.toNat then false
    else charListLeB as bs

/-- Code-point comparison of strings. -/
def strLeB (a b : String) : Bool := charListLeB a.data b.data

/-- `sorted(cols)`. -/
def sortStrings (l : List String) : List String :=
  List.insertionSort (fun a b => strLeB a b = true) l

/-- The column set assembled by `_set_model_type` from the loaded data. -/
def modelCols (s : PPState) : List String :=
  sortStrings (["motif"]
    ++ (if s.atacLoaded then
          "ATAC" :: (if s.referenceRegions then ["ATAC.relative"] else [])
        else [])
    ++ (if s.histoneLoaded then ["H3K27ac"] else [])
    ++ (if s.referenceRegions then ["average", "dist"] else []))

/-- One `self.factor_models[factor] = joblib.load(fname)` assignment:
replace the value of an existing key, or append a new binding. -/
def upsert (models : List (String × Nat)) (kv : String × Nat) :
    List (String × Nat) :=
  if models.any fun x => x.1 == kv.1 then
    models.map fun x => if x.1 == kv.1 then (x.1, kv.2) else x
  else models ++ [kv]

/-- The `for fname in glob(...)` loading loop: assign every model of the
current model-type directory into the registry (nothing is removed). -/
def updateModels (models newEntries : List (String × Nat)) :
    List (String × Nat) :=
  newEntries.foldl upsert models

/-- Embeds `_set_model_type`: recompute the column set and model-type
string from the currently loaded data, then load every model the store
offers for that model type into the (persistent) registry. -/
def set_model_type (store : String → List (String × Nat)) (s : PPState) :
    PPState :=
  ⟨s.atacLoaded, s.histoneLoaded, s.referenceRegions,
   String.intercalate "_" (modelCols s), modelCols s,
   updateModels s.factorModels (store (String.intercalate "_" (modelCols s)))⟩

/-- Embeds `load_atac`: mark ATAC data as loaded and, when
`update_models` is set, re-run `_set_model_type`. -/
def load_atac (store : String → List (String × Nat)) (update_models : Bool)
    (s : PPState) : PPState :=
  if update_models then
    set_model_type store
      ⟨true, s.histoneLoaded, s.referenceRegions, s.modelType, s.xColumns,
       s.factorModels⟩
  else
    ⟨true, s.histoneLoaded, s.referenceRegions, s.modelType, s.xColumns,
     s.factorModels⟩

/-- Embeds `load_histone`: mark H3K27ac data as loaded and, when
`update_models` is set, re-run `_set_model_type`. -/
def load_histone (store : String → List (String × Nat)) (update_models : Bool)
    (s : PPState) : PPState :=
  if update_models then
    set_model_type store
      ⟨s.atacLoaded, true, s.referenceRegions, s.modelType, s.xColumns,
       s.factorModels⟩
  else
    ⟨s.atacLoaded, true, s.referenceRegions, s.modelType, s.xColumns,
     s.factorModels⟩

/-- The prediction-time data of a `PeakPredictor`: the fixed region
order, the factor→motifs mapping, and the per-factor feature matrix of
`_load_data` (one feature vector per region; `none` entries are NaN). -/
structure PPData where
  regions : List String
  f2m : List (String × List String)
  featureRow : String → String → List (Option ℚ)

/-- A feature row passes `dropna` only when every entry is present. -/
def seqRow : List (Option ℚ) → Option (List ℚ)
  | [] => some []
  | none :: _ => none
  | some x :: rest => (seqRow rest).map fun l => x :: l

/-- Embeds `_load_data` followed by `dropna()`: the surviving rows, in
region order, with their (complete) feature vectors. -/
def load_data (dat : PPData) (factor : String) : List (String × List ℚ) :=
  dat.regions.filterMap fun r =>
    (seqRow (dat.featureRow factor r)).map fun vals => (r, vals)

/-- The failure modes of `predict_proba`. -/
inductive PPErr where
  | needFactorOrMotifs
  | motifsNotImplemented
  | unknownFactor
  | noGeneralModel
  | lengthMismatch
deriving DecidableEq

/-- Embeds `PeakPredictor.predict_proba`: validate the inputs, select a
model via `_load_model`, score the NaN-free feature rows, and build the
result `DataFrame(proba, index=self.regions)` — pandas raises when the
scored data is shorter than the region index, which happens exactly when
`dropna` removed a row. `score m` abstracts
`model.predict_proba(x)[:, 1]` for the model with identifier `m`. -/
def predict_proba (dat : PPData) (models : List (String × Nat))
    (edges : List (String × String × ℚ)) (score : Nat → List ℚ → ℚ)
    (factor : Option String) (motifs : Option (List String))
    (jaccard_cutoff : ℚ) : Except PPErr (List (String × ℚ)) :=
  match factor, motifs with
  | none, none => .error .needFactorOrMotifs
  | _, some _ => .error .motifsNotImplemented
  | some f, none =>
    if f ∈ dat.f2m.map Prod.fst then
      match load_model models edges f jaccard_cutoff with
      | none => .error .noGeneralModel
      | some m =>
        if ((load_data dat f).map fun rv => score m rv.2).length
            = dat.regions.length then
          .ok (dat.regions.zip ((load_data dat f).map fun rv => score m rv.2))
        else .error .lengthMismatch
    else .error .unknownFactor

/-- Concrete motif sets for the Jaccard-graph example: A = {m1, m2},
B = {m2, m3}. -/
def exF2m : List (String × Finset String) :=
  [("A", {"m1", "m2"}), ("B", {"m2", "m3"})]

/-- Concrete graph for the model-fallback example: X at weighted distance
1/5 (jaccard 4/5) from Y. -/
def exEdges : List (String × String × ℚ) := [("X", "Y", 1 - 4 / 5)]

/-- Concrete model store for the fallback example: Y has model 7, the
general model is 9, X has no model. -/
def exModelsC1 : List (String × Nat) := [("Y", 7), ("general", 9)]

/-- Concrete model store keyed by model type: the `ATAC_motif` directory
has a model for factor `x`, the `ATAC_H3K27ac_motif` directory does not. -/
def exStore : String → List (String × Nat) := fun mt =>
  if mt = "ATAC_motif" then [("x", 1), ("general", 0)]
  else if mt = "ATAC_H3K27ac_motif" then [("general", 0)]
  else []

/-- Initial predictor state: nothing loaded, custom regions, empty
registry. -/
def exState0 : PPState := ⟨false, false, false, "", [], []⟩

/-- State after loading ATAC data (model type `ATAC_motif`). -/
def exState1 : PPState := load_atac exStore true exState0

/-- State after additionally loading histone data (model type
`ATAC_H3K27ac_motif`). -/
def exState2 : PPState := load_histone exStore true exState1

/-- Concrete prediction data: two regions, one factor, and a feature
matrix with a missing value in region `r2`. -/
def exDat : PPData :=
  ⟨["r1", "r2"], [("F", ["m"])],
   fun _ r => if r = "r2" then [none] else [some 1]⟩

/-- Complete variant of `exDat` (no missing features). -/
def exDatFull : PPData :=
  ⟨["r1", "r2"], [("F", ["m"])], fun _ _ => [some 1]⟩

/-- Model store for the `predict_proba` examples. -/
def exModelsC4 : List (String × Nat) := [("F", 0), ("general", 9)]

/-- Scoring function for the `predict_proba` examples. -/
def exScore : Nat → List ℚ → ℚ := fun _ _ => 1

/-- Binding rows whose factors `A_B` and `A` collide on the composite
key: `stKey "A_B" "C" = stKey "A" "B_C" = "A_B_C"`. -/
def exBind6 : List BindingRow :=
  [⟨"A_B".toList, "e1".toList, 1⟩, ⟨"A".toList, "e2".toList, 1⟩]

/-- Gene overlaps for the composite-key collision example. -/
def exGene6 : List GeneRow :=
  [⟨"C".toList, "e1".toList, 10⟩, ⟨"B_C".toList, "e2".toList, 10⟩]

/-- Collision-free binding table for the aggregation witness. -/
def exBindW : List BindingRow := [⟨"A".toList, "e1".toList, 1⟩]

/-- Collision-free gene overlap for the aggregation witness. -/
def exGeneW : List GeneRow := [⟨"G".toList, "e1".toList, 10⟩]

/-! ## Theorems -/

lemma takeWhile_append_all {p : Char → Bool} {l1 l2 : List Char}
    (h : ∀ c ∈ l1, p c) : (l1 ++ l2).takeWhile p = l1 ++ l2.takeWhile p := by
  induction l1 with
  | nil => simp
  | cons c cs ih =>
    have hc : p c := h c (by simp)
    have ih' := ih fun d hd => h d (by simp [hd])
    simp [List.takeWhile_cons, hc, ih']

lemma mem_takeWhile_sat {p : Char → Bool} {l : List Char} {c : Char}
    (h : c ∈ l.takeWhile p) : p c := by
  induction l with
  | nil => simp at h
  | cons d ds ih =>
    rw [List.takeWhile_cons] at h
    by_cases hd : p d
    · simp only [hd, if_true] at h
      rcases List.mem_cons.mp h with rfl | h
      · exact hd
      · exact ih h
    · simp [hd] at h

lemma factorOf_stKey {f : Name} (g : Name) (hf : '_' ∉ f) :
    factorOf (stKey f g) = f := by
  unfold factorOf stKey
  rw [takeWhile_append_all]
  · simp [List.takeWhile_cons]
  · intro c hc
    simp only [decide_eq_true_eq]
    exact fun h => hf (h ▸ hc)

lemma geneOf_stKey (f : Name) {g : Name} (hg : '_' ∉ g) :
    geneOf (stKey f g) = g := by
  unfold geneOf stKey
  have : (f ++ '_' :: g).reverse = g.reverse ++ '_' :: f.reverse := by
    simp [List.reverse_append]
  rw [this, takeWhile_append_all]
  · simp [List.takeWhile_cons]
  · intro c hc
    simp only [decide_eq_true_eq]
    exact fun h => hg (h ▸ List.mem_reverse.mp hc)

lemma no_underscore_factorOf (st : Name) : '_' ∉ factorOf st := by
  intro h
  have := mem_takeWhile_sat h
  simp at this

lemma no_underscore_geneOf (st : Name) : '_' ∉ geneOf st := by
  intro h
  have := mem_takeWhile_sat (List.mem_reverse.mp h)
  simp at this

lemma factorOf_ne_of_underscore {f : Name} (g : Name) (hf : '_' ∈ f) :
    factorOf (stKey f g) ≠ f := by
  intro h
  have hno := no_underscore_factorOf (stKey f g)
  rw [h] at hno
  exact hno hf

lemma geneOf_ne_of_underscore (f : Name) {g : Name} (hg : '_' ∈ g) :
    geneOf (stKey f g) ≠ g := by
  intro h
  have hno := no_underscore_geneOf (stKey f g)
  rw [h] at hno
  exact hno hg

lemma stKey_inj {f1 g1 f2 g2 : Name} (hf1 : '_' ∉ f1) (hf2 : '_' ∉ f2)
    (h : stKey f1 g1 = stKey f2 g2) : f1 = f2 ∧ g1 = g2 := by
  have hfac : f1 = f2 := by
    have h1 := factorOf_stKey g1 hf1
    have h2 := factorOf_stKey g2 hf2
    rw [← h1, ← h2, h]
  refine ⟨hfac, ?_⟩
  subst hfac
  unfold stKey at h
  have := List.append_cancel_left h
  exact List.cons.inj this |>.2

lemma dropDupFirst_subset {seen : List (Name × Name)} {l : List GeneRow} {r : GeneRow}
    (h : r ∈ dropDupFirst seen l) : r ∈ l := by
  induction l generalizing seen with
  | nil => simp [dropDupFirst] at h
  | cons x xs ih =>
    rw [dropDupFirst] at h
    by_cases hx : grKey x ∈ seen
    · simp only [hx, if_true] at h
      exact List.mem_cons_of_mem _ (ih h)
    · simp only [hx, if_false] at h
      rcases List.mem_cons.mp h with rfl | h
      · exact List.mem_cons_self _ _
      · exact List.mem_cons_of_mem _ (ih h)

lemma dropDupFirst_key_not_seen {seen : List (Name × Name)} {l : List GeneRow} {r : GeneRow}
    (h : r ∈ dropDupFirst seen l) : grKey r ∉ seen := by
  induction l generalizing seen with
  | nil => simp [dropDupFirst] at h
  | cons x xs ih =>
    rw [dropDupFirst] at h
    by_cases hx : grKey x ∈ seen
    · simp only [hx, if_true] at h
      exact ih h
    · simp only [hx, if_false] at h
      rcases List.mem_cons.mp h with rfl | h
      · exact hx
      · intro hmem
        exact ih h (List.mem_cons_of_mem _ hmem)

lemma dropDupFirst_min {seen : List (Name × Name)} {l : List GeneRow}
    (hs : l.Pairwise distLe) {r : GeneRow} (h : r ∈ dropDupFirst seen l) :
    ∀ r' ∈ l, grKey r' = grKey r → r.dist ≤ r'.dist := by
  induction l generalizing seen with
  | nil => simp [dropDupFirst] at h
  | cons x xs ih =>
    have hx_rest := List.pairwise_cons.mp hs
    rw [dropDupFirst] at h
    by_cases hx : grKey x ∈ seen
    · simp only [hx, if_true] at h
      intro r' hr' hk
      rcases List.mem_cons.mp hr' with rfl | hr'
      · exfalso
        have := dropDupFirst_key_not_seen h
        rw [← hk] at this
        exact this hx
      · exact ih hx_rest.2 h r' hr' hk
    · simp only [hx, if_false] at h
      rcases List.mem_cons.mp h with rfl | h
      · intro r' hr' _
        rcases List.mem_cons.mp hr' with rfl | hr'
        · exact le_refl _
        · exact hx_rest.1 r' hr'
      · intro r' hr' hk
        rcases List.mem_cons.mp hr' with rfl | hr'
        · exfalso
          have := dropDupFirst_key_not_seen h
          rw [← hk] at this
          exact this (List.mem_cons_self _ _)
        · exact ih hx_rest.2 h r' hr' hk

lemma dropDupFirst_keys_nodup (seen : List (Name × Name)) (l : List GeneRow) :
    ((dropDupFirst seen l).map grKey).Nodup
    ∧ ∀ k ∈ (dropDupFirst seen l).map grKey, k ∉ seen := by
  induction l generalizing seen with
  | nil => simp [dropDupFirst]
  | cons x xs ih =>
    rw [dropDupFirst]
    by_cases hx : grKey x ∈ seen
    · simpa [hx] using ih seen
    · simp only [hx, if_false, List.map_cons, List.nodup_cons]
      have ih' := ih (grKey x :: seen)
      refine ⟨⟨?_, ih'.1⟩, ?_⟩
      · intro hmem
        exact ih'.2 _ hmem (List.mem_cons_self _ _)
      · intro k hk
        rcases List.mem_cons.mp hk with rfl | hk
        · exact hx
        · intro hmem
          exact ih'.2 _ hk (List.mem_cons_of_mem _ hmem)

lemma countP_le_one_of_nodup_keys {l : List GeneRow}
    (h : (l.map grKey).Nodup) (k : Name × Name) :
    l.countP (fun r => grKey r == k) ≤ 1 := by
  induction l with
  | nil => simp
  | cons x xs ih =>
    rw [List.map_cons, List.nodup_cons] at h
    rw [List.countP_cons]
    by_cases hx : grKey x = k
    · have hzero : xs.countP (fun r => grKey r == k) = 0 := by
        rw [List.countP_eq_zero]
        intro r hr hbeq
        apply h.1
        rw [List.mem_map]
        exact ⟨r, hr, by rw [eq_of_beq hbeq, hx]⟩
      simp [hzero, hx]
    · have : (grKey x == k) = false := by
        simp [hx]
      simp only [this]
      simpa using ih h.2

lemma dropDupFirst_covers {seen : List (Name × Name)} {l : List GeneRow} {r' : GeneRow}
    (h : r' ∈ l) (hns : grKey r' ∉ seen) :
    ∃ r ∈ dropDupFirst seen l, grKey r = grKey r' := by
  induction l generalizing seen with
  | nil => simp at h
  | cons x xs ih =>
    rw [dropDupFirst]
    by_cases hx : grKey x ∈ seen
    · simp only [hx, if_true]
      rcases List.mem_cons.mp h with rfl | h
      · exact absurd hx hns
      · exact ih h hns
    · simp only [hx, if_false]
      by_cases hk : grKey r' = grKey x
      · exact ⟨x, List.mem_cons_self _ _, hk.symm⟩
      · rcases List.mem_cons.mp h with rfl | h
        · exact absurd rfl hk
        · have hns' : grKey r' ∉ grKey x :: seen := by
            intro hmem
            rcases List.mem_cons.mp hmem with heq | hmem
            · exact hk heq
            · exact hns hmem
          obtain ⟨r, hr, hkr⟩ := ih h hns'
          exact ⟨r, List.mem_cons_of_mem _ hr, hkr⟩

/-- C10: in the table produced by `get_gene_dataframe`, every
(location, gene) key appears at most once; every surviving row is one of
the computed overlap rows and has minimal distance among the rows sharing
its key; and every computed overlap row is represented by some surviving
row with its key. -/
theorem gene_dataframe_unique_min (up down : Nat) (rows : List RawOverlap) :
    (∀ k : Name × Name,
      (get_gene_dataframe up down rows).countP (fun r => grKey r == k) ≤ 1)
    ∧ (∀ r ∈ get_gene_dataframe up down rows,
        r ∈ rows.map (geneRowOf up down)
        ∧ ∀ r' ∈ rows.map (geneRowOf up down), grKey r' = grKey r → r.dist ≤ r'.dist)
    ∧ (∀ r' ∈ rows.map (geneRowOf up down),
        ∃ r ∈ get_gene_dataframe up down rows, grKey r = grKey r') := by
  have hperm := List.perm_insertionSort distLe (rows.map (geneRowOf up down))
  have hsorted := List.sorted_insertionSort distLe (rows.map (geneRowOf up down))
  refine ⟨?_, ?_, ?_⟩
  · intro k
    exact countP_le_one_of_nodup_keys (dropDupFirst_keys_nodup [] _).1 k
  · intro r hr
    constructor
    · exact hperm.mem_iff.mp (dropDupFirst_subset hr)
    · intro r' hr' hk
      exact dropDupFirst_min hsorted hr r' (hperm.mem_iff.mpr hr') hk
  · intro r' hr'
    exact dropDupFirst_covers (hperm.mem_iff.mpr hr') (by simp)

/-- Witness for `gene_dataframe_unique_min` on a concrete input: the
duplicated (loc, gene) key appears once, the kept row is the minimal
distance one, and in particular its distance bounds the dropped row's. -/
theorem gene_dataframe_unique_min_witness :
    ((get_gene_dataframe 100 100 exOverlaps).countP
      (fun r => grKey r == (locName ['c'] 80 120, ['g'])) ≤ 1)
    ∧ exKept.dist ≤ exDropped.dist := by
  refine ⟨(gene_dataframe_unique_min 100 100 exOverlaps).1 _, ?_⟩
  exact ((gene_dataframe_unique_min 100 100 exOverlaps).2.1 exKept (by decide)).2
    exDropped (by decide) (by decide)

lemma joinGene_filter (b : List BindingRow) (p : List GeneRow) (q : GeneRow → Bool) :
    joinGene b (p.filter q) = (joinGene b p).filter fun r => q r.2 := by
  unfold joinGene
  rw [List.filter_flatMap]
  congr 1
  funext br
  rw [List.filter_map]
  simp only [Function.comp_def]
  rw [List.filter_filter, List.filter_filter]
  exact congrArg (List.map fun gr => (br, gr))
    (List.filter_congr fun gr _ => Bool.and_comm _ _)

lemma longTable_eq (b : List BindingRow) (p : List GeneRow) :
    longTable b p
      = (joinGene b (p.map upperGeneG)).filter fun r => r.2.dist < 99999 := by
  unfold longTable
  have h1 : (p.filter fun gr => gr.dist < 99999).map upperGeneG
      = (p.map upperGeneG).filter fun gr => gr.dist < 99999 := by
    rw [List.filter_map]
    rfl
  rw [h1, joinGene_filter]

lemma groupG_filter (t : List (BindingRow × GeneRow)) (q : BindingRow × GeneRow → Bool)
    (k : Name × Name) : groupG (t.filter q) k = (groupG t k).filter q := by
  unfold groupG
  rw [List.filter_filter, List.filter_filter]
  exact List.filter_congr fun r _ => Bool.and_comm _ _

/-- C7: the long-range table of `aggregate_binding` only ever contains
enhancer-gene pairs at distance strictly below 99999, whatever window was
used to produce the overlaps, and each aggregation group (feeding the
long-range sums, maxima and enhancer counts) is exactly the corresponding
group of the unrestricted join restricted to distance < 99999. -/
theorem long_range_hard_cutoff (b : List BindingRow) (p : List GeneRow) :
    (∀ r ∈ longTable b p, r.2.dist < 99999)
    ∧ ∀ k, groupG (longTable b p) k
        = (groupG (joinGene b (p.map upperGeneG)) k).filter
            fun r => r.2.dist < 99999 := by
  constructor
  · intro r hr
    rw [longTable_eq] at hr
    have := List.mem_filter.mp hr
    simpa using this.2
  · intro k
    rw [longTable_eq, groupG_filter]

/-- Witness for `long_range_hard_cutoff`: a concrete enhancer at distance
50 survives into the long-range table and the theorem bounds it. -/
theorem long_range_hard_cutoff_witness :
    ((⟨['F'], ['l'], (1 : ℚ)⟩ : BindingRow), (⟨['G'], ['l'], 50⟩ : GeneRow)).2.dist
      < 99999 :=
  (long_range_hard_cutoff [⟨['F'], ['l'], (1 : ℚ)⟩]
      [⟨['g'], ['l'], 50⟩, ⟨['g'], ['l'], 100000⟩]).1
    ((⟨['F'], ['l'], (1 : ℚ)⟩ : BindingRow), (⟨['G'], ['l'], 50⟩ : GeneRow))
    (by decide)

/-- C9: in the final feature table the `factor` column is the prefix of
`source_target` before its first underscore and `gene` is the suffix
after its last underscore; for underscore-free names the composite key
round-trips exactly, while any name containing an underscore is not
recovered unchanged. -/
theorem source_target_round_trip (alpha : ℝ) (padding keep1 remove : Nat)
    (b : List BindingRow) (p : List GeneRow) (prom : List PromRow) :
    (∀ row ∈ aggregate_binding alpha padding keep1 remove b p prom,
        row.factor = factorOf row.source_target
        ∧ row.gene = geneOf row.source_target)
    ∧ (∀ f g : Name, '_' ∉ f → '_' ∉ g →
        factorOf (stKey f g) = f ∧ geneOf (stKey f g) = g)
    ∧ (∀ f g : Name, '_' ∈ f → factorOf (stKey f g) ≠ f)
    ∧ (∀ f g : Name, '_' ∈ g → geneOf (stKey f g) ≠ g) := by
  refine ⟨?_, ?_, ?_, ?_⟩
  · intro row hrow
    unfold aggregate_binding at hrow
    obtain ⟨kv, _, rfl⟩ := List.mem_map.mp hrow
    exact ⟨rfl, rfl⟩
  · intro f g hf hg
    exact ⟨factorOf_stKey g hf, geneOf_stKey f hg⟩
  · intro f g hf
    exact factorOf_ne_of_underscore g hf
  · intro f g hg
    exact geneOf_ne_of_underscore f hg

/-- Witness for `source_target_round_trip`: concrete underscore-free
names round-trip, and a factor containing an underscore does not. -/
theorem source_target_round_trip_witness :
    (factorOf (stKey ['A'] ['B']) = ['A'] ∧ geneOf (stKey ['A'] ['B']) = ['B'])
    ∧ factorOf (stKey ['A', '_', 'C'] ['B']) ≠ ['A', '_', 'C'] :=
  ⟨(source_target_round_trip 1 1 1 1 [] [] []).2.1 ['A'] ['B']
      (by decide) (by decide),
   (source_target_round_trip 1 1 1 1 [] [] []).2.2.1 ['A', '_', 'C'] ['B']
      (by decide)⟩

lemma find?_map_range' (g : Nat → ℝ) (a n d : Nat) (h1 : a ≤ d) (h2 : d < a + n) :
    ((List.range' a n).map fun z => (g z, z)).find? (fun pr => pr.2 == d)
      = some (g d, d) := by
  induction n generalizing a with
  | zero => omega
  | succ m ih =>
    rw [List.range'_succ, List.map_cons, List.find?_cons]
    by_cases hda : a = d
    · subst hda
      simp
    · have hfalse : ((g a, a).2 == d) = false := by
        simp [hda]
      rw [hfalse]
      exact ih (a + 1) (by omega) (by omega)

lemma find?_map_range'_none (g : Nat → ℝ) (a n d : Nat) (h : d < a ∨ a + n ≤ d) :
    ((List.range' a n).map fun z => (g z, z)).find? (fun pr => pr.2 == d)
      = none := by
  induction n generalizing a with
  | zero => simp
  | succ m ih =>
    rw [List.range'_succ, List.map_cons, List.find?_cons]
    have hfalse : ((g a, a).2 == d) = false := by
      simp
      omega
    rw [hfalse]
    exact ih (a + 1) (by omega)

lemma weightTable_third (alpha : ℝ) (padding keep1 : Nat) :
    ((List.range' 1 (padding - keep1)).map fun (z : Nat) =>
        (logisticW alpha (z : ℝ), keep1 + z))
      = (List.range' (keep1 + 1) (padding - keep1)).map
          fun dd => (logisticW alpha ((dd - keep1 : Nat) : ℝ), dd) := by
  rw [List.range'_eq_map_range, List.range'_eq_map_range, List.map_map, List.map_map]
  apply List.map_congr_left
  intro i _
  simp only [Function.comp_apply]
  have h1 : keep1 + 1 + i - keep1 = 1 + i := by omega
  have h2 : keep1 + (1 + i) = keep1 + 1 + i := by omega
  rw [h1, h2]

lemma weightAt_low (alpha : ℝ) (padding keep1 remove d : Nat)
    (hrk : remove ≤ keep1) (h1 : 1 ≤ d) (h2 : d ≤ remove) :
    weightAt alpha padding keep1 remove d = some 0 := by
  unfold weightAt weightTable
  rw [List.find?_append, List.find?_append]
  have hfst : ((List.range' 1 remove).map fun dd => ((0 : ℝ), dd)).find?
      (fun pr => pr.2 == d) = some ((0 : ℝ), d) := by
    have := find?_map_range' (fun _ => (0 : ℝ)) 1 remove d h1 (by omega)
    simpa using this
  rw [hfst]
  simp

lemma weightAt_mid (alpha : ℝ) (padding keep1 remove d : Nat)
    (hrk : remove ≤ keep1) (h1 : remove < d) (h2 : d ≤ keep1) :
    weightAt alpha padding keep1 remove d = some 1 := by
  unfold weightAt weightTable
  rw [List.find?_append, List.find?_append]
  have hfst : ((List.range' 1 remove).map fun dd => ((0 : ℝ), dd)).find?
      (fun pr => pr.2 == d) = none := by
    have := find?_map_range'_none (fun _ => (0 : ℝ)) 1 remove d (by omega)
    simpa using this
  have hsnd : ((List.range' (remove + 1) (keep1 - remove)).map
      fun dd => ((1 : ℝ), dd)).find? (fun pr => pr.2 == d) = some ((1 : ℝ), d) := by
    have := find?_map_range' (fun _ => (1 : ℝ)) (remove + 1) (keep1 - remove) d
      (by omega) (by omega)
    simpa using this
  rw [hfst, hsnd]
  simp

lemma weightAt_high (alpha : ℝ) (padding keep1 remove d : Nat)
    (hrk : remove ≤ keep1) (hkp : keep1 ≤ padding) (h1 : keep1 < d)
    (h2 : d ≤ padding) :
    weightAt alpha padding keep1 remove d
      = some (logisticW alpha ((d - keep1 : Nat) : ℝ)) := by
  unfold weightAt weightTable
  rw [List.find?_append, List.find?_append]
  have hfst : ((List.range' 1 remove).map fun dd => ((0 : ℝ), dd)).find?
      (fun pr => pr.2 == d) = none := by
    have := find?_map_range'_none (fun _ => (0 : ℝ)) 1 remove d (by omega)
    simpa using this
  have hsnd : ((List.range' (remove + 1) (keep1 - remove)).map
      fun dd => ((1 : ℝ), dd)).find? (fun pr => pr.2 == d) = none := by
    have := find?_map_range'_none (fun _ => (1 : ℝ)) (remove + 1) (keep1 - remove) d
      (by omega)
    simpa using this
  have hthd : ((List.range' 1 (padding - keep1)).map fun (z : Nat) =>
      (logisticW alpha (z : ℝ), keep1 + z)).find? (fun pr => pr.2 == d)
      = some (logisticW alpha ((d - keep1 : Nat) : ℝ), d) := by
    rw [weightTable_third]
    have := find?_map_range' (fun dd => logisticW alpha ((dd - keep1 : Nat) : ℝ))
      (keep1 + 1) (padding - keep1) d (by omega) (by omega)
    simpa using this
  rw [hfst, hsnd, hthd]
  simp

lemma uDecay_pos {alpha : ℝ} (h : 0 < alpha) : 0 < uDecay alpha := by
  unfold uDecay
  have h3 : -Real.log (1 / 3) = Real.log 3 := by
    rw [one_div, Real.log_inv]
    ring
  rw [h3]
  have hl : 0 < Real.log 3 := Real.log_pos (by norm_num)
  positivity

lemma logisticW_strict_anti {alpha : ℝ} (halpha : 0 < alpha) {z1 z2 : ℝ}
    (h0 : 0 ≤ z1) (h12 : z1 < z2) : logisticW alpha z2 < logisticW alpha z1 := by
  have hu := uDecay_pos halpha
  unfold logisticW
  rw [abs_of_nonneg h0, abs_of_nonneg (le_of_lt (lt_of_le_of_lt h0 h12))]
  set x1 := Real.exp (-uDecay alpha * z1 / 100000) with hx1
  set x2 := Real.exp (-uDecay alpha * z2 / 100000) with hx2
  have hlt : x2 < x1 := by
    apply Real.exp_lt_exp.mpr
    have : uDecay alpha * z1 < uDecay alpha * z2 := by
      exact mul_lt_mul_of_pos_left h12 hu
    nlinarith
  have hx2pos : 0 < x2 := Real.exp_pos _
  rw [div_lt_div_iff (by nlinarith) (by nlinarith)]
  nlinarith

/-- C2 (amended): the distance weight merged onto a row at distance
`d ∈ [1, padding]` is 0 on `[1, remove]`, 1 on `(remove, keep1]`, and on
`(keep1, padding]` it is the logistic curve
`2 e^{-u z/1e5} / (1 + e^{-u z/1e5})` (with `u = -ln(1/3)·1e5/alpha`)
evaluated at the offset `z = d - keep1` — not at `d` itself; on
`(keep1, padding]` the weight is strictly decreasing in `d`. -/
theorem distance_weight_pieces (alpha : ℝ) (padding keep1 remove : Nat)
    (halpha : 0 < alpha) (hrk : remove ≤ keep1) (hkp : keep1 ≤ padding) :
    (∀ d : Nat, 1 ≤ d → d ≤ remove →
        weightAt alpha padding keep1 remove d = some 0)
    ∧ (∀ d : Nat, remove < d → d ≤ keep1 →
        weightAt alpha padding keep1 remove d = some 1)
    ∧ (∀ d : Nat, keep1 < d → d ≤ padding →
        weightAt alpha padding keep1 remove d
          = some (logisticW alpha ((d - keep1 : Nat) : ℝ)))
    ∧ (∀ d1 d2 : Nat, keep1 < d1 → d1 < d2 → d2 ≤ padding →
        logisticW alpha ((d2 - keep1 : Nat) : ℝ)
          < logisticW alpha ((d1 - keep1 : Nat) : ℝ)) := by
  refine ⟨?_, ?_, ?_, ?_⟩
  · intro d h1 h2
    exact weightAt_low alpha padding keep1 remove d hrk h1 h2
  · intro d h1 h2
    exact weightAt_mid alpha padding keep1 remove d hrk h1 h2
  · intro d h1 h2
    exact weightAt_high alpha padding keep1 remove d hrk hkp h1 h2
  · intro d1 d2 h1 h12 h2
    apply logisticW_strict_anti halpha
    · positivity
    · have hlt : d1 - keep1 < d2 - keep1 := by omega
      exact_mod_cast hlt

/-- Witness for `distance_weight_pieces` with the default parameters
(`alpha = 1e4`, `padding = 1e5`, `keep1 = 5000`, `remove = 2000`). -/
theorem distance_weight_pieces_witness :
    weightAt 10000 100000 5000 2000 1500 = some 0
    ∧ weightAt 10000 100000 5000 2000 3000 = some 1
    ∧ weightAt 10000 100000 5000 2000 7000
        = some (logisticW 10000 ((7000 - 5000 : Nat) : ℝ))
    ∧ logisticW 10000 ((8000 - 5000 : Nat) : ℝ)
        < logisticW 10000 ((7000 - 5000 : Nat) : ℝ) := by
  have h := distance_weight_pieces 10000 100000 5000 2000 (by norm_num)
    (by norm_num) (by norm_num)
  exact ⟨h.1 1500 (by norm_num) (by norm_num),
         h.2.1 3000 (by norm_num) (by norm_num),
         h.2.2.1 7000 (by norm_num) (by norm_num),
         h.2.2.2 7000 8000 (by norm_num) (by norm_num) (by norm_num)⟩

/-- Counterexample to C2 as stated: with the default parameters, at
distance `d = 5001` the merged weight is the logistic curve at
`d - keep1 = 1`, which differs from the claimed value of the curve at
`d = 5001`. -/
theorem distance_weight_spec_mismatch :
    weightAt 10000 100000 5000 2000 5001
      ≠ some (logisticW 10000 ((5001 : Nat) : ℝ)) := by
  have hval : weightAt 10000 100000 5000 2000 5001
      = some (logisticW 10000 ((5001 - 5000 : Nat) : ℝ)) :=
    weightAt_high 10000 100000 5000 2000 5001 (by norm_num) (by norm_num)
      (by norm_num) (by norm_num)
  rw [hval]
  intro h
  have heq := Option.some.inj h
  have hlt : logisticW 10000 ((5001 : Nat) : ℝ)
      < logisticW 10000 ((5001 - 5000 : Nat) : ℝ) := by
    apply logisticW_strict_anti (by norm_num)
    · norm_num
    · norm_num
  rw [heq] at hlt
  exact lt_irrefl _ hlt

/-- C8: `predict_proba` rejects a call with neither factor nor motifs
with an input-validation error, rejects every call that supplies motifs
with a not-implemented error, and rejects a factor missing from the
factor→motif mapping with an input-validation error; each case yields an
`error`, never a prediction. -/
theorem predict_proba_validation (dat : PPData) (models : List (String × Nat))
    (edges : List (String × String × ℚ)) (score : Nat → List ℚ → ℚ) (jc : ℚ) :
    predict_proba dat models edges score none none jc
      = .error .needFactorOrMotifs
    ∧ (∀ (fo : Option String) (ms : List String),
        predict_proba dat models edges score fo (some ms) jc
          = .error .motifsNotImplemented)
    ∧ (∀ f : String, f ∉ dat.f2m.map Prod.fst →
        predict_proba dat models edges score (some f) none jc
          = .error .unknownFactor) := by
  refine ⟨rfl, ?_, ?_⟩
  · intro fo ms
    cases fo <;> rfl
  · intro f hf
    unfold predict_proba
    simp [hf]

/-- Witness for `predict_proba_validation`: the three error cases on a
concrete predictor. -/
theorem predict_proba_validation_witness :
    predict_proba exDat exModelsC4 [] exScore none none 0
      = .error .needFactorOrMotifs
    ∧ predict_proba exDat exModelsC4 [] exScore (some "F") (some ["m"]) 0
      = .error .motifsNotImplemented
    ∧ predict_proba exDat exModelsC4 [] exScore (some "G") none 0
      = .error .unknownFactor :=
  ⟨(predict_proba_validation exDat exModelsC4 [] exScore 0).1,
   (predict_proba_validation exDat exModelsC4 [] exScore 0).2.1 (some "F") ["m"],
   (predict_proba_validation exDat exModelsC4 [] exScore 0).2.2 "G" (by decide)⟩

lemma seqRow_isSome_iff (l : List (Option ℚ)) :
    (seqRow l).isSome ↔ ∀ x ∈ l, x.isSome := by
  induction l with
  | nil => simp [seqRow]
  | cons x xs ih =>
    cases x with
    | none => simp [seqRow]
    | some v =>
      simp [seqRow, ih]

lemma load_data_complete (dat : PPData) (f : String)
    (h : ∀ r ∈ dat.regions, ∀ x ∈ dat.featureRow f r, x.isSome) :
    (load_data dat f).map Prod.fst = dat.regions := by
  rcases dat with ⟨rs, f2m, fr⟩
  unfold load_data
  simp only
  induction rs with
  | nil => simp
  | cons r rest ih =>
    have hr : (seqRow (fr f r)).isSome :=
      (seqRow_isSome_iff _).mpr (h r (by simp))
    obtain ⟨vals, hv⟩ := Option.isSome_iff_exists.mp hr
    have ih' := ih fun r' hr' => h r' (by simp [hr'])
    simp [List.filterMap_cons, hv, ih']

lemma load_data_short (dat : PPData) (f : String) (r0 : String)
    (hr : r0 ∈ dat.regions) (h : seqRow (dat.featureRow f r0) = none) :
    (load_data dat f).length < dat.regions.length := by
  rcases dat with ⟨rs, f2m, fr⟩
  unfold load_data
  simp only at h ⊢
  induction rs with
  | nil => simp at hr
  | cons r rest ih =>
    rcases List.mem_cons.mp hr with rfl | hr'
    · have hle := List.length_filterMap_le
        (fun r => (seqRow (fr f r)).map fun vals => (r, vals)) rest
      simp only [List.filterMap_cons, h, Option.map_none', List.length_cons]
      omega
    · have ih' := ih hr'
      cases hcase : (seqRow (fr f r)).map fun vals => (r, vals) with
      | none =>
        simp only [List.filterMap_cons, hcase, List.length_cons]
        omega
      | some rv =>
        simp only [List.filterMap_cons, hcase, List.length_cons]
        omega

/-- C4 (amended): for a factor known to the factor→motif mapping with a
selectable model, `predict_proba` returns one probability per region, in
the fixed region order, when no feature row has a missing value; but when
`dropna` removes at least one row, the scored data is shorter than the
region index and `predict_proba` raises a length-mismatch error instead
of returning a shorter table. -/
theorem predict_proba_row_count (dat : PPData) (models : List (String × Nat))
    (edges : List (String × String × ℚ)) (score : Nat → List ℚ → ℚ)
    (f : String) (jc : ℚ) (m : Nat)
    (hf : f ∈ dat.f2m.map Prod.fst)
    (hm : load_model models edges f jc = some m) :
    ((∀ r ∈ dat.regions, ∀ x ∈ dat.featureRow f r, x.isSome) →
        predict_proba dat models edges score (some f) none jc
          = .ok (dat.regions.zip
              ((load_data dat f).map fun rv => score m rv.2))
        ∧ (load_data dat f).map Prod.fst = dat.regions)
    ∧ ((∃ r ∈ dat.regions, ∃ x ∈ dat.featureRow f r, x = none) →
        predict_proba dat models edges score (some f) none jc
          = .error .lengthMismatch) := by
  constructor
  · intro hall
    have hfst := load_data_complete dat f hall
    have hlen : (load_data dat f).length = dat.regions.length := by
      rw [← hfst, List.length_map]
    refine ⟨?_, hfst⟩
    unfold predict_proba
    simp only [hf, if_pos, hm]
    rw [List.length_map, if_pos hlen]
  · intro hex
    obtain ⟨r0, hr0, x, hx, hxn⟩ := hex
    have hnone : seqRow (dat.featureRow f r0) = none := by
      by_contra hns
      have hs : (seqRow (dat.featureRow f r0)).isSome := by
        cases hcase : seqRow (dat.featureRow f r0) with
        | none => exact absurd hcase hns
        | some _ => simp
      have := (seqRow_isSome_iff _).mp hs x hx
      rw [hxn] at this
      simp at this
    have hlt := load_data_short dat f r0 hr0 hnone
    unfold predict_proba
    simp only [hf, if_pos, hm]
    rw [List.length_map, if_neg (by omega)]

/-- Witness for `predict_proba_row_count`: on complete data the result is
the zipped per-region score list. -/
theorem predict_proba_row_count_witness :
    predict_proba exDatFull exModelsC4 [] exScore (some "F") none 0
      = .ok (exDatFull.regions.zip
          ((load_data exDatFull "F").map fun rv => exScore 0 rv.2)) :=
  ((predict_proba_row_count exDatFull exModelsC4 [] exScore "F" 0 0
      (by decide) (by decide)).1 (by decide)).1

/-- Counterexample to C4 as stated: with a missing feature in region
`r2`, `predict_proba` does not return a shorter table — it raises the
pandas length-mismatch error (the scored data has strictly fewer rows
than the region index it is reattached to). -/
theorem dropped_rows_error :
    predict_proba exDat exModelsC4 [] exScore (some "F") none 0
      = .error .lengthMismatch
    ∧ (load_data exDat "F").length < exDat.regions.length := by
  constructor
  · rfl
  · decide

lemma lookup_map_replace (m : List (String × Nat)) (kv : String × Nat)
    (hany : m.any (fun x => x.1 == kv.1) = true) :
    lookup (m.map fun x => if x.1 == kv.1 then (x.1, kv.2) else x) kv.1
      = some kv.2 := by
  induction m with
  | nil => simp at hany
  | cons x xs ih =>
    by_cases hx : x.1 = kv.1
    · unfold lookup
      rw [List.map_cons, List.find?_cons]
      simp [hx]
    · have hany' : xs.any (fun x => x.1 == kv.1) = true := by
        rcases List.any_eq_true.mp hany with ⟨a, ha, hpa⟩
        rcases List.mem_cons.mp ha with rfl | ha'
        · exact absurd (by simpa using hpa) hx
        · exact List.any_eq_true.mpr ⟨a, ha', hpa⟩
      unfold lookup
      rw [List.map_cons, List.find?_cons]
      have hfalse : ((if x.1 == kv.1 then (x.1, kv.2) else x).1 == kv.1) = false := by
        simp [hx]
      rw [hfalse]
      exact ih hany'

lemma lookup_upsert_self (m : List (String × Nat)) (kv : String × Nat) :
    lookup (upsert m kv) kv.1 = some kv.2 := by
  unfold upsert
  by_cases hany : m.any (fun x => x.1 == kv.1) = true
  · rw [if_pos hany]
    exact lookup_map_replace m kv hany
  · rw [if_neg hany]
    unfold lookup
    rw [List.find?_append]
    have hnone : m.find? (fun x => x.1 == kv.1) = none := by
      rw [List.find?_eq_none]
      intro a ha hpa
      exact hany (List.any_eq_true.mpr ⟨a, ha, hpa⟩)
    rw [hnone]
    simp

lemma lookup_upsert_other (m : List (String × Nat)) (kv : String × Nat)
    (k : String) (hk : k ≠ kv.1) : lookup (upsert m kv) k = lookup m k := by
  unfold upsert
  by_cases hany : m.any (fun x => x.1 == kv.1) = true
  · rw [if_pos hany]
    unfold lookup
    induction m with
    | nil => simp
    | cons x xs ih =>
      rw [List.map_cons, List.find?_cons, List.find?_cons]
      by_cases hx : x.1 = kv.1
      · have h1 : ((if x.1 == kv.1 then (x.1, kv.2) else x).1 == k) = false := by
          simp [hx]
          exact fun h => absurd h.symm hk
        have h2 : (x.1 == k) = false := by
          simp [hx]
          exact fun h => absurd h.symm hk
        rw [h1, h2]
        by_cases hany' : xs.any (fun x => x.1 == kv.1) = true
        · exact ih hany'
        · clear ih
          have hmap : (xs.map fun x => if x.1 == kv.1 then (x.1, kv.2) else x)
              = xs := by
            conv_rhs => rw [← List.map_id xs]
            apply List.map_congr_left
            intro a ha
            have hf : (a.1 == kv.1) = false := by
              by_contra hc
              simp only [Bool.not_eq_false] at hc
              exact hany' (List.any_eq_true.mpr ⟨a, ha, hc⟩)
            simp [hf]
          rw [hmap]
      · have heq : (if x.1 == kv.1 then (x.1, kv.2) else x) = x := by
          simp [hx]
        rw [heq]
        cases hcase : (x.1 == k) with
        | true => rfl
        | false =>
          by_cases hany' : xs.any (fun x => x.1 == kv.1) = true
          · exact ih hany'
          · have hmap : (xs.map fun x => if x.1 == kv.1 then (x.1, kv.2) else x)
                = xs := by
              conv_rhs => rw [← List.map_id xs]
              apply List.map_congr_left
              intro a ha
              have hf : (a.1 == kv.1) = false := by
                by_contra hc
                simp only [Bool.not_eq_false] at hc
                exact hany' (List.any_eq_true.mpr ⟨a, ha, hc⟩)
              simp [hf]
            rw [hmap]
  · rw [if_neg hany]
    unfold lookup
    rw [List.find?_append]
    have hnone : List.find? (fun x => x.1 == k) [kv] = none := by
      simp
      exact fun h => absurd h.symm hk
    rw [hnone]
    simp

lemma lookup_updateModels_not_mem (m newE : List (String × Nat)) (k : String)
    (hk : k ∉ newE.map Prod.fst) :
    lookup (updateModels m newE) k = lookup m k := by
  induction newE generalizing m with
  | nil => rfl
  | cons e es ih =>
    unfold updateModels at ih ⊢
    rw [List.foldl_cons]
    have hke : k ≠ e.1 := by
      intro h
      exact hk (by simp [h])
    rw [ih (upsert m e) (fun h => hk (by simp [h]))]
    exact lookup_upsert_other m e k hke

lemma lookup_updateModels_mem (m newE : List (String × Nat)) (k : String)
    (v : Nat) (hnd : (newE.map Prod.fst).Nodup) (hkv : (k, v) ∈ newE) :
    lookup (updateModels m newE) k = some v := by
  induction newE generalizing m with
  | nil => simp at hkv
  | cons e es ih =>
    rw [List.map_cons, List.nodup_cons] at hnd
    unfold updateModels
    rw [List.foldl_cons]
    rcases List.mem_cons.mp hkv with rfl | hkv'
    · have hnm : k ∉ es.map Prod.fst := by
        simpa using hnd.1
      have := lookup_updateModels_not_mem (upsert m (k, v)) es k hnm
      unfold updateModels at this
      rw [this]
      exact lookup_upsert_self m (k, v)
    · exact ih (upsert m e) hnd.2 hkv'

/-- C3 (amended): `_set_model_type` recomputes the model-type string and
usable column set from the currently loaded data — and both data loaders
re-run it — and every model the store offers for the current model type
becomes selectable; but the registry is cumulative, so a model loaded
under a previous model type and absent from the current one remains
selectable. -/
theorem set_model_type_recompute (store : String → List (String × Nat))
    (s : PPState)
    (hnd : ((store (String.intercalate "_" (modelCols s))).map Prod.fst).Nodup) :
    (set_model_type store s).modelType = String.intercalate "_" (modelCols s)
    ∧ (set_model_type store s).xColumns = modelCols s
    ∧ load_atac store true s
        = set_model_type store
            ⟨true, s.histoneLoaded, s.referenceRegions, s.modelType,
             s.xColumns, s.factorModels⟩
    ∧ load_histone store true s
        = set_model_type store
            ⟨s.atacLoaded, true, s.referenceRegions, s.modelType,
             s.xColumns, s.factorModels⟩
    ∧ (∀ k v, (k, v) ∈ store (String.intercalate "_" (modelCols s)) →
        lookup (set_model_type store s).factorModels k = some v)
    ∧ (∀ k v, lookup s.factorModels k = some v →
        k ∉ (store (String.intercalate "_" (modelCols s))).map Prod.fst →
        lookup (set_model_type store s).factorModels k = some v) := by
  refine ⟨rfl, rfl, rfl, rfl, ?_, ?_⟩
  · intro k v hkv
    exact lookup_updateModels_mem _ _ k v hnd hkv
  · intro k v hv hk
    unfold set_model_type
    simp only
    rw [lookup_updateModels_not_mem _ _ k hk]
    exact hv

/-- Witness for `set_model_type_recompute` on the concrete store: after
loading ATAC data, the model type is `ATAC_motif` and the `x` model is
selectable. -/
theorem set_model_type_recompute_witness :
    exState1.modelType = "ATAC_motif"
    ∧ lookup exState1.factorModels "x" = some 1 := by
  constructor
  · decide
  · have h := (set_model_type_recompute exStore
      ⟨true, false, false, "", [], []⟩ (by decide)).2.2.2.2.1 "x" 1 (by decide)
    exact h

/-- Counterexample to C3 as stated: after histone data is loaded the
model type becomes `ATAC_H3K27ac_motif`, whose store has no model for
factor `x` — yet the `x` model loaded under the previous model type
`ATAC_motif` is still selectable. -/
theorem stale_models_persist :
    exState2.modelType = "ATAC_H3K27ac_motif"
    ∧ "x" ∉ (exStore exState2.modelType).map Prod.fst
    ∧ lookup exState2.factorModels "x" = some 1 := by
  refine ⟨by decide, by decide, by decide⟩

lemma findSome?_of_forall_none {α β : Type} {g : α → Option β} {l : List α}
    (h : ∀ a ∈ l, g a = none) : l.findSome? g = none := by
  induction l with
  | nil => rfl
  | cons a as ih =>
    rw [List.findSome?_cons, h a (by simp)]
    exact ih fun a' ha' => h a' (by simp [ha'])

lemma findSome?_append_left_none {α β : Type} {g : α → Option β}
    {l1 l2 : List α} (h : ∀ a ∈ l1, g a = none) :
    (l1 ++ l2).findSome? g = l2.findSome? g := by
  induction l1 with
  | nil => rfl
  | cons a as ih =>
    rw [List.cons_append, List.findSome?_cons, h a (by simp)]
    exact ih fun a' ha' => h a' (by simp [ha'])

lemma dijkstraCandidates_mem {edges : List (String × String × ℚ)} {f : String}
    {c : ℚ} {td : String × ℚ} (h : td ∈ dijkstraCandidates edges f c) :
    td.2 ≤ c ∧ shortestDist edges f td.1 = some td.2 := by
  unfold dijkstraCandidates at h
  have h' := (List.perm_insertionSort wLe _).mem_iff.mp h
  obtain ⟨v, _, hv⟩ := List.mem_filterMap.mp h'
  cases hsd : shortestDist edges f v with
  | none => rw [hsd] at hv; simp at hv
  | some dv =>
    rw [hsd] at hv
    simp only at hv
    by_cases hle : dv ≤ c
    · rw [if_pos hle] at hv
      obtain rfl := Option.some.inj hv
      exact ⟨hle, hsd⟩
    · rw [if_neg hle] at hv
      simp at hv

lemma exEdges_nodes : edgeNodes exEdges = ["X", "Y"] := by decide

lemma exEdges_pathDists :
    pathDists exEdges "X" = [("X", 0), ("Y", (1 - 4 / 5) + 0)] := by
  unfold pathDists
  rw [exEdges_nodes]
  simp [explore, adjOf, exEdges]

lemma exEdges_shortest :
    shortestDist exEdges "X" "Y" = some (1 / 5) := by
  unfold shortestDist
  rw [exEdges_pathDists]
  norm_num
  simp

lemma exEdges_shortest_self :
    shortestDist exEdges "X" "X" = some 0 := by
  unfold shortestDist
  rw [exEdges_pathDists]
  norm_num
  simp

lemma exEdges_candidates :
    dijkstraCandidates exEdges "X" (1 - 1 / 10) = [("X", 0), ("Y", 1 / 5)] := by
  unfold dijkstraCandidates
  rw [exEdges_nodes]
  have hx := exEdges_shortest_self
  have hy := exEdges_shortest
  simp only [List.filterMap_cons, List.filterMap_nil, hx, hy]
  norm_num [List.insertionSort, List.orderedInsert, wLe]

lemma exEdges_load_model :
    load_model exModelsC1 exEdges "X" (1 / 10) = some 7 := by
  unfold load_model
  have h1 : lookup exModelsC1 "X" = none := by decide
  have h2 : ("X" ∈ edgeNodes exEdges) = True := by
    rw [exEdges_nodes]; simp
  rw [h1, if_pos (by rw [exEdges_nodes]; decide), exEdges_candidates]
  have h3 : lookup exModelsC1 "Y" = some 7 := by decide
  simp [List.findSome?_cons, lookup, exModelsC1]

/-- C1: `_load_model` selects, in strict priority order, the factor's own
model when present; otherwise, for a factor in the motif graph, the model
of the first TF carrying a trained model among the Dijkstra candidates
(all within weighted distance `1 - jaccard_cutoff`, visited in increasing
shortest-path-weight order); otherwise the `general` model. In
particular, for TF X with no own model at weighted distance 1/5 (jaccard
4/5) from TF Y which has a model, with `jaccard_cutoff = 1/10`, Y's model
is selected rather than `general`. -/
theorem model_selection_priority :
    (∀ (models : List (String × Nat)) (edges : List (String × String × ℚ))
        (f : String) (jc : ℚ) (m : Nat), lookup models f = some m →
        load_model models edges f jc = some m)
    ∧ (∀ (models : List (String × Nat)) (edges : List (String × String × ℚ))
        (f : String) (jc : ℚ), lookup models f = none → f ∉ edgeNodes edges →
        load_model models edges f jc = lookup models "general")
    ∧ (∀ (models : List (String × Nat)) (edges : List (String × String × ℚ))
        (f : String) (jc : ℚ), lookup models f = none →
        (∀ td ∈ dijkstraCandidates edges f (1 - jc), lookup models td.1 = none) →
        load_model models edges f jc = lookup models "general")
    ∧ (∀ (edges : List (String × String × ℚ)) (f : String) (c : ℚ),
        (dijkstraCandidates edges f c).Sorted wLe
        ∧ ∀ td ∈ dijkstraCandidates edges f c,
            td.2 ≤ c ∧ shortestDist edges f td.1 = some td.2)
    ∧ (∀ (models : List (String × Nat)) (edges : List (String × String × ℚ))
        (f : String) (jc : ℚ) (l1 l2 : List (String × ℚ)) (td : String × ℚ)
        (m : Nat), lookup models f = none → f ∈ edgeNodes edges →
        dijkstraCandidates edges f (1 - jc) = l1 ++ td :: l2 →
        (∀ td' ∈ l1, lookup models td'.1 = none) → lookup models td.1 = some m →
        load_model models edges f jc = some m)
    ∧ (load_model exModelsC1 exEdges "X" (1 / 10) = some 7
        ∧ lookup exModelsC1 "X" = none
        ∧ lookup exModelsC1 "general" = some 9
        ∧ shortestDist exEdges "X" "Y" = some (1 / 5)) := by
  refine ⟨?_, ?_, ?_, ?_, ?_, ?_⟩
  · intro models edges f jc m h
    unfold load_model
    rw [h]
  · intro models edges f jc h hn
    unfold load_model
    rw [h, if_neg hn]
  · intro models edges f jc h hall
    unfold load_model
    rw [h]
    by_cases hn : f ∈ edgeNodes edges
    · rw [if_pos hn, findSome?_of_forall_none hall]
    · rw [if_neg hn]
  · intro edges f c
    exact ⟨List.sorted_insertionSort wLe _, fun td htd => dijkstraCandidates_mem htd⟩
  · intro models edges f jc l1 l2 td m h hn hsplit hnone hm
    unfold load_model
    rw [h, if_pos hn, hsplit, findSome?_append_left_none hnone,
      List.findSome?_cons, hm]
  · exact ⟨exEdges_load_model, by decide, by decide, exEdges_shortest⟩

/-- Witness for `model_selection_priority`: the own-model branch on a
concrete store. -/
theorem model_selection_priority_witness :
    load_model exModelsC1 exEdges "Y" (1 / 10) = some 7 :=
  model_selection_priority.1 exModelsC1 exEdges "Y" (1 / 10) 7 (by decide)

lemma pairsList_cons {α : Type} (z : α) (zs : List α) :
    pairsList (z :: zs) = (zs.map fun y => (z, y)) ++ pairsList zs := rfl

lemma pairsList_split {α : Type} {x y : α} {l : List α} :
    (x, y) ∈ pairsList l ↔ ∃ l1 l2 l3, l = l1 ++ (x :: (l2 ++ (y :: l3))) := by
  constructor
  · intro h
    induction l with
    | nil => simp [pairsList] at h
    | cons z zs ih =>
      rw [pairsList_cons] at h
      rcases List.mem_append.mp h with hmap | hrec
      · obtain ⟨b, hb, heq⟩ := List.mem_map.mp hmap
        obtain ⟨h1, h2⟩ := Prod.mk.inj heq
        subst h1
        subst h2
        obtain ⟨s, t, rfl⟩ := List.append_of_mem hb
        exact ⟨[], s, t, rfl⟩
      · obtain ⟨l1, l2, l3, rfl⟩ := ih hrec
        exact ⟨z :: l1, l2, l3, rfl⟩
  · rintro ⟨l1, l2, l3, rfl⟩
    induction l1 with
    | nil =>
      rw [List.nil_append, pairsList_cons]
      exact List.mem_append.mpr (Or.inl (List.mem_map.mpr ⟨y, by simp, rfl⟩))
    | cons z l1' ih =>
      rw [List.cons_append, pairsList_cons]
      exact List.mem_append.mpr (Or.inr ih)

lemma sublist_pair_of_split {l1 l2 l3 : List (String × Finset String)}
    {p q : String × Finset String} :
    List.Sublist [p.1, q.1] ((l1 ++ (p :: (l2 ++ (q :: l3)))).map Prod.fst) := by
  rw [List.map_append, List.map_cons, List.map_append, List.map_cons]
  refine List.Sublist.trans ?_ (List.sublist_append_right _ _)
  apply List.Sublist.cons₂
  refine List.Sublist.trans ?_ (List.sublist_append_right _ _)
  exact List.Sublist.cons₂ _ (List.nil_sublist _)

lemma pairsList_mem_left {α : Type} {x y : α} {l : List α}
    (h : (x, y) ∈ pairsList l) : x ∈ l ∧ y ∈ l := by
  obtain ⟨l1, l2, l3, rfl⟩ := pairsList_split.mp h
  constructor <;> simp

lemma pairsList_cover {α : Type} {x y : α} {l : List α}
    (hx : x ∈ l) (hy : y ∈ l) (hxy : x ≠ y) :
    (x, y) ∈ pairsList l ∨ (y, x) ∈ pairsList l := by
  induction l with
  | nil => simp at hx
  | cons z zs ih =>
    by_cases hzx : z = x
    · subst hzx
      have hy' : y ∈ zs := by
        rcases List.mem_cons.mp hy with rfl | h
        · exact absurd rfl (Ne.symm hxy)
        · exact h
      left
      rw [pairsList_cons]
      exact List.mem_append.mpr (Or.inl (List.mem_map.mpr ⟨y, hy', rfl⟩))
    · by_cases hzy : z = y
      · subst hzy
        have hx' : x ∈ zs := by
          rcases List.mem_cons.mp hx with rfl | h
          · exact absurd rfl hzx
          · exact h
        right
        rw [pairsList_cons]
        exact List.mem_append.mpr (Or.inl (List.mem_map.mpr ⟨x, hx', rfl⟩))
      · have hx' : x ∈ zs := by
          rcases List.mem_cons.mp hx with rfl | h
          · exact absurd rfl hzx
          · exact h
        have hy' : y ∈ zs := by
          rcases List.mem_cons.mp hy with rfl | h
          · exact absurd rfl hzy
          · exact h
        rcases ih hx' hy' with h | h
        · left
          rw [pairsList_cons]
          exact List.mem_append.mpr (Or.inr h)
        · right
          rw [pairsList_cons]
          exact List.mem_append.mpr (Or.inr h)

lemma pairsList_count_eq_one {α : Type} [DecidableEq α] {l : List α}
    (hnd : l.Nodup) {x y : α} (hx : x ∈ l) (hy : y ∈ l) (hxy : x ≠ y) :
    (pairsList l).countP (fun pq => pq = (x, y) ∨ pq = (y, x)) = 1 := by
  induction l with
  | nil => simp at hx
  | cons z zs ih =>
    rw [List.nodup_cons] at hnd
    rw [pairsList_cons, List.countP_append]
    by_cases hzx : z = x
    · subst hzx
      have hy' : y ∈ zs := by
        rcases List.mem_cons.mp hy with rfl | h
        · exact absurd rfl (Ne.symm hxy)
        · exact h
      have hmap : (zs.map fun b => (z, b)).countP
          (fun pq => pq = (z, y) ∨ pq = (y, z)) = 1 := by
        rw [List.countP_map]
        have : zs.countP ((fun pq => decide (pq = (z, y) ∨ pq = (y, z)))
            ∘ fun b => (z, b)) = zs.countP (fun b => b == y) := by
          apply List.countP_congr
          intro b hb
          simp only [Function.comp_apply, decide_eq_true_eq, beq_iff_eq]
          constructor
          · rintro (h | h)
            · exact (Prod.mk.inj h).2
            · exact absurd (Prod.mk.inj h).1 hxy
          · rintro rfl
            exact Or.inl rfl
        rw [this]
        rw [← List.count]
        exact List.count_eq_one_of_mem hnd.2 hy'
      have hrec : (pairsList zs).countP
          (fun pq => pq = (z, y) ∨ pq = (y, z)) = 0 := by
        rw [List.countP_eq_zero]
        intro pq hpq hsat
        simp only [decide_eq_true_eq] at hsat
        have hmem := pairsList_mem_left hpq
        rcases hsat with rfl | rfl
        · exact hnd.1 hmem.1
        · exact hnd.1 hmem.2
      rw [hmap, hrec]
    · by_cases hzy : z = y
      · subst hzy
        have hx' : x ∈ zs := by
          rcases List.mem_cons.mp hx with rfl | h
          · exact absurd rfl hzx
          · exact h
        have hmap : (zs.map fun b => (z, b)).countP
            (fun pq => pq = (x, z) ∨ pq = (z, x)) = 1 := by
          rw [List.countP_map]
          have : zs.countP ((fun pq => decide (pq = (x, z) ∨ pq = (z, x)))
              ∘ fun b => (z, b)) = zs.countP (fun b => b == x) := by
            apply List.countP_congr
            intro b hb
            simp only [Function.comp_apply, decide_eq_true_eq, beq_iff_eq]
            constructor
            · rintro (h | h)
              · exact absurd (Prod.mk.inj h).1 hzx
              · exact (Prod.mk.inj h).2
            · rintro rfl
              exact Or.inr rfl
          rw [this]
          rw [← List.count]
          exact List.count_eq_one_of_mem hnd.2 hx'
        have hrec : (pairsList zs).countP
            (fun pq => pq = (x, z) ∨ pq = (z, x)) = 0 := by
          rw [List.countP_eq_zero]
          intro pq hpq hsat
          simp only [decide_eq_true_eq] at hsat
          have hmem := pairsList_mem_left hpq
          rcases hsat with rfl | rfl
          · exact hnd.1 hmem.2
          · exact hnd.1 hmem.1
        rw [hmap, hrec]
      · have hx' : x ∈ zs := by
          rcases List.mem_cons.mp hx with rfl | h
          · exact absurd rfl hzx
          · exact h
        have hy' : y ∈ zs := by
          rcases List.mem_cons.mp hy with rfl | h
          · exact absurd rfl hzy
          · exact h
        have hmap : (zs.map fun b => (z, b)).countP
            (fun pq => pq = (x, y) ∨ pq = (y, x)) = 0 := by
          rw [List.countP_eq_zero]
          intro pq hpq hsat
          obtain ⟨b, hb, rfl⟩ := List.mem_map.mp hpq
          simp only [decide_eq_true_eq] at hsat
          rcases hsat with h | h
          · exact hzx (Prod.mk.inj h).1
          · exact hzy (Prod.mk.inj h).1
        rw [hmap, ih hnd.2 hx' hy']

lemma key_unique {l : List (String × Finset String)}
    (hnd : (l.map Prod.fst).Nodup) {a : String} {s1 s2 : Finset String}
    (h1 : (a, s1) ∈ l) (h2 : (a, s2) ∈ l) : s1 = s2 := by
  induction l with
  | nil => simp at h1
  | cons e es ih =>
    rw [List.map_cons, List.nodup_cons] at hnd
    rcases List.mem_cons.mp h1 with he1 | h1'
    · rcases List.mem_cons.mp h2 with he2 | h2'
      · rw [← he1] at he2
        exact ((Prod.mk.inj he2).2).symm
      · exfalso
        apply hnd.1
        rw [← he1]
        exact List.mem_map.mpr ⟨(a, s2), h2', rfl⟩
    · rcases List.mem_cons.mp h2 with he2 | h2'
      · exfalso
        apply hnd.1
        rw [← he2]
        exact List.mem_map.mpr ⟨(a, s1), h1', rfl⟩
      · exact ih hnd.2 h1' h2'

lemma split_keys_ne {l1 l2 l3 : List (String × Finset String)}
    {p q : String × Finset String}
    (hnd : ((l1 ++ (p :: (l2 ++ (q :: l3)))).map Prod.fst).Nodup) :
    p.1 ≠ q.1 := by
  have hpair : ([p.1, q.1] : List String).Nodup :=
    List.Nodup.sublist sublist_pair_of_split hnd
  rw [List.nodup_cons] at hpair
  intro hpq
  apply hpair.1
  rw [hpq]
  simp

lemma countP_filterMap_eq {α β : Type} (F : α → Option β) (q : β → Bool)
    (l : List α) :
    (l.filterMap F).countP q = l.countP fun a => ((F a).map q).getD false := by
  induction l with
  | nil => rfl
  | cons x xs ih =>
    rw [List.filterMap_cons]
    cases hF : F x with
    | none =>
      rw [List.countP_cons]
      simp [hF, ih]
    | some b =>
      rw [List.countP_cons, List.countP_cons]
      simp [hF, ih]

lemma mem_jaccardEdges {f2m : List (String × Finset String)}
    {e : String × String × ℚ} :
    e ∈ jaccardEdges f2m ↔
      ∃ pq ∈ pairsList f2m, (pq.1.2 ∩ pq.2.2).card ≠ 0
        ∧ (pq.1.2 ∪ pq.2.2).card ≠ 0
        ∧ e = (pq.1.1, pq.2.1,
            1 - ((pq.1.2 ∩ pq.2.2).card : ℚ) / ((pq.1.2 ∪ pq.2.2).card : ℚ)) := by
  unfold jaccardEdges
  rw [List.mem_filterMap]
  constructor
  · rintro ⟨pq, hpq, hF⟩
    by_cases hc : (pq.1.2 ∩ pq.2.2).card ≠ 0 ∧ (pq.1.2 ∪ pq.2.2).card ≠ 0
    · rw [if_pos hc] at hF
      exact ⟨pq, hpq, hc.1, hc.2, (Option.some.inj hF).symm⟩
    · rw [if_neg hc] at hF
      simp at hF
  · rintro ⟨pq, hpq, h1, h2, rfl⟩
    exact ⟨pq, hpq, by rw [if_pos ⟨h1, h2⟩]⟩

lemma hasEdge_iff {f2m : List (String × Finset String)}
    (hnd : (f2m.map Prod.fst).Nodup) (a b : String) (w : ℚ) :
    hasEdge (jaccardEdges f2m) a b w ↔
      ∃ sa sb : Finset String, (a, sa) ∈ f2m ∧ (b, sb) ∈ f2m ∧ a ≠ b
        ∧ (sa ∩ sb).Nonempty
        ∧ w = 1 - ((sa ∩ sb).card : ℚ) / ((sa ∪ sb).card : ℚ) := by
  constructor
  · intro h
    rcases h with h | h
    · obtain ⟨pq, hpq, h1, h2, heq⟩ := mem_jaccardEdges.mp h
      obtain ⟨ha, hrest⟩ := Prod.mk.inj heq
      obtain ⟨hb, hw⟩ := Prod.mk.inj hrest
      obtain ⟨s1, s2, s3, hsplit⟩ := pairsList_split.mp
        (show (pq.1, pq.2) ∈ pairsList f2m from hpq)
      have hne : pq.1.1 ≠ pq.2.1 := by
        rw [hsplit] at hnd
        exact split_keys_ne hnd
      refine ⟨pq.1.2, pq.2.2, ?_, ?_, ?_, ?_, ?_⟩
      · rw [ha]
        exact (pairsList_mem_left hpq).1
      · rw [hb]
        exact (pairsList_mem_left hpq).2
      · rw [ha, hb]
        exact hne
      · exact Finset.card_ne_zero.mp h1
      · exact hw
    · obtain ⟨pq, hpq, h1, h2, heq⟩ := mem_jaccardEdges.mp h
      obtain ⟨hb, hrest⟩ := Prod.mk.inj heq
      obtain ⟨ha, hw⟩ := Prod.mk.inj hrest
      obtain ⟨s1, s2, s3, hsplit⟩ := pairsList_split.mp
        (show (pq.1, pq.2) ∈ pairsList f2m from hpq)
      have hne : pq.1.1 ≠ pq.2.1 := by
        rw [hsplit] at hnd
        exact split_keys_ne hnd
      refine ⟨pq.2.2, pq.1.2, ?_, ?_, ?_, ?_, ?_⟩
      · rw [ha]
        exact (pairsList_mem_left hpq).2
      · rw [hb]
        exact (pairsList_mem_left hpq).1
      · rw [ha, hb]
        exact hne.symm
      · rw [Finset.inter_comm]
        exact Finset.card_ne_zero.mp h1
      · rw [Finset.inter_comm pq.2.2 pq.1.2, Finset.union_comm pq.2.2 pq.1.2]
        exact hw
  · rintro ⟨sa, sb, ha, hb, hab, hne, rfl⟩
    have hentry : ((a, sa) : String × Finset String) ≠ (b, sb) := by
      intro h
      exact hab (Prod.mk.inj h).1
    rcases pairsList_cover ha hb hentry with hmem | hmem
    · left
      apply mem_jaccardEdges.mpr
      refine ⟨((a, sa), (b, sb)), hmem, ?_, ?_, rfl⟩
      · exact Finset.card_ne_zero.mpr hne
      · exact Finset.card_ne_zero.mpr (hne.mono Finset.inter_subset_union)
    · right
      apply mem_jaccardEdges.mpr
      refine ⟨((b, sb), (a, sa)), hmem, ?_, ?_, ?_⟩
      · rw [Finset.inter_comm]
        exact Finset.card_ne_zero.mpr hne
      · rw [Finset.union_comm]
        exact Finset.card_ne_zero.mpr (hne.mono Finset.inter_subset_union)
      · rw [Finset.inter_comm sb sa, Finset.union_comm sb sa]

lemma edgeCount_pair {f2m : List (String × Finset String)}
    (hnd : (f2m.map Prod.fst).Nodup) {a b : String} {sa sb : Finset String}
    (ha : (a, sa) ∈ f2m) (hb : (b, sb) ∈ f2m) (hab : a ≠ b)
    (hne : (sa ∩ sb).Nonempty) :
    edgeCount (jaccardEdges f2m) a b = 1 := by
  unfold edgeCount jaccardEdges
  rw [countP_filterMap_eq]
  have hentry : ((a, sa) : String × Finset String) ≠ (b, sb) := by
    intro h
    exact hab (Prod.mk.inj h).1
  rw [← pairsList_count_eq_one (List.Nodup.of_map Prod.fst hnd) ha hb hentry]
  apply List.countP_congr
  intro pq hpq
  have hm := pairsList_mem_left hpq
  constructor
  · intro hpred
    by_cases hc : (pq.1.2 ∩ pq.2.2).card ≠ 0 ∧ (pq.1.2 ∪ pq.2.2).card ≠ 0
    · rw [if_pos hc] at hpred
      simp only [Option.map_some', Option.getD_some, decide_eq_true_eq] at hpred
      simp only [decide_eq_true_eq]
      rcases hpred with ⟨h1, h2⟩ | ⟨h1, h2⟩
      · left
        have hp1 : pq.1 = (a, sa) := by
          have : (pq.1.1, pq.1.2) ∈ f2m := hm.1
          rw [h1] at this
          have := key_unique hnd this ha
          rw [Prod.ext_iff]
          exact ⟨h1, this⟩
        have hp2 : pq.2 = (b, sb) := by
          have : (pq.2.1, pq.2.2) ∈ f2m := hm.2
          rw [h2] at this
          have := key_unique hnd this hb
          rw [Prod.ext_iff]
          exact ⟨h2, this⟩
        rw [Prod.ext_iff]
        exact ⟨hp1, hp2⟩
      · right
        have hp1 : pq.1 = (b, sb) := by
          have : (pq.1.1, pq.1.2) ∈ f2m := hm.1
          rw [h1] at this
          have := key_unique hnd this hb
          rw [Prod.ext_iff]
          exact ⟨h1, this⟩
        have hp2 : pq.2 = (a, sa) := by
          have : (pq.2.1, pq.2.2) ∈ f2m := hm.2
          rw [h2] at this
          have := key_unique hnd this ha
          rw [Prod.ext_iff]
          exact ⟨h2, this⟩
        rw [Prod.ext_iff]
        exact ⟨hp1, hp2⟩
    · rw [if_neg hc] at hpred
      simp at hpred
  · intro hpq_eq
    simp only [decide_eq_true_eq] at hpq_eq
    rcases hpq_eq with rfl | rfl
    · have hc : (sa ∩ sb).card ≠ 0 ∧ (sa ∪ sb).card ≠ 0 :=
        ⟨Finset.card_ne_zero.mpr hne,
         Finset.card_ne_zero.mpr (hne.mono Finset.inter_subset_union)⟩
      rw [if_pos hc]
      simp [hab]
    · have hc : (sb ∩ sa).card ≠ 0 ∧ (sb ∪ sa).card ≠ 0 := by
        rw [Finset.inter_comm, Finset.union_comm]
        exact ⟨Finset.card_ne_zero.mpr hne,
          Finset.card_ne_zero.mpr (hne.mono Finset.inter_subset_union)⟩
      rw [if_pos hc]
      simp [hab]

/-- C5: with distinct factor keys, the motif similarity graph has an edge
between two distinct factors exactly when their motif sets overlap, the
edge weight is `1 - |intersection|/|union|`, the edge is unique, factors
with zero shared motifs and self-pairs get no edge, the edge relation
only depends on the factor→motif-set map (so any enumeration order of
the pairs yields the same edge set), and for A = {m1, m2}, B = {m2, m3}
the weight equals `1 - 1/3 = 2/3`. -/
theorem jaccard_graph_edges (f2m : List (String × Finset String))
    (hnd : (f2m.map Prod.fst).Nodup) :
    (∀ a b w, hasEdge (jaccardEdges f2m) a b w ↔
      ∃ sa sb : Finset String, (a, sa) ∈ f2m ∧ (b, sb) ∈ f2m ∧ a ≠ b
        ∧ (sa ∩ sb).Nonempty
        ∧ w = 1 - ((sa ∩ sb).card : ℚ) / ((sa ∪ sb).card : ℚ))
    ∧ (∀ a b sa sb, (a, sa) ∈ f2m → (b, sb) ∈ f2m → a ≠ b →
        (sa ∩ sb).Nonempty → edgeCount (jaccardEdges f2m) a b = 1)
    ∧ (∀ a b sa sb w, (a, sa) ∈ f2m → (b, sb) ∈ f2m → sa ∩ sb = ∅ →
        ¬ hasEdge (jaccardEdges f2m) a b w)
    ∧ (∀ a w, ¬ hasEdge (jaccardEdges f2m) a a w)
    ∧ (∀ f2m' : List (String × Finset String), f2m.Perm f2m' →
        ∀ a b w, hasEdge (jaccardEdges f2m) a b w
          ↔ hasEdge (jaccardEdges f2m') a b w)
    ∧ (hasEdge (jaccardEdges exF2m) "A" "B" (1 - 1 / 3)
        ∧ (1 : ℚ) - 1 / 3 = 2 / 3) := by
  refine ⟨hasEdge_iff hnd, ?_, ?_, ?_, ?_, ?_, ?_⟩
  · intro a b sa sb ha hb hab hne
    exact edgeCount_pair hnd ha hb hab hne
  · intro a b sa sb w ha hb hdisj h
    obtain ⟨sa', sb', ha', hb', _, hne', _⟩ := (hasEdge_iff hnd a b w).mp h
    rw [key_unique hnd ha' ha, key_unique hnd hb' hb, hdisj] at hne'
    exact Finset.not_nonempty_empty hne'
  · intro a w h
    obtain ⟨_, _, _, _, haa, _, _⟩ := (hasEdge_iff hnd a a w).mp h
    exact haa rfl
  · intro f2m' hperm a b w
    have hnd' : (f2m'.map Prod.fst).Nodup :=
      ((hperm.map Prod.fst).nodup_iff).mp hnd
    rw [hasEdge_iff hnd a b w, hasEdge_iff hnd' a b w]
    constructor
    · rintro ⟨sa, sb, ha, hb, hr⟩
      exact ⟨sa, sb, hperm.mem_iff.mp ha, hperm.mem_iff.mp hb, hr⟩
    · rintro ⟨sa, sb, ha, hb, hr⟩
      exact ⟨sa, sb, hperm.mem_iff.mpr ha, hperm.mem_iff.mpr hb, hr⟩
  · left
    apply mem_jaccardEdges.mpr
    refine ⟨(("A", {"m1", "m2"}), ("B", {"m2", "m3"})), ?_, ?_, ?_, ?_⟩
    · simp [exF2m, pairsList_cons, pairsList]
    · decide
    · decide
    · have hi : ((({"m1", "m2"} : Finset String)) ∩ {"m2", "m3"}).card = 1 := by
        decide
      have hu : ((({"m1", "m2"} : Finset String)) ∪ {"m2", "m3"}).card = 3 := by
        decide
      rw [hi, hu]
      norm_num
  · norm_num

/-- Witness for `jaccard_graph_edges`: on the concrete two-factor map the
theorem yields the unique `A`–`B` edge. -/
theorem jaccard_graph_edges_witness :
    edgeCount (jaccardEdges exF2m) "A" "B" = 1 :=
  (jaccard_graph_edges exF2m (by decide)).2.1 "A" "B" {"m1", "m2"} {"m2", "m3"}
    (by decide) (by decide) (by decide) (by decide)

lemma countK_def {α : Type} (k : Name) (l : List (Name × α)) :
    countK k l = l.countP (fun x => x.1 == k) := rfl

lemma countK_filter_length {β : Type} (r : List (Name × β)) (k : Name) :
    (r.filter fun kb => kb.1 == k).length = countK k r :=
  (List.countP_eq_length_filter _ _).symm

lemma filter_isEmpty_iff_countK {β : Type} (r : List (Name × β)) (k : Name) :
    (r.filter fun kb => kb.1 == k).isEmpty = true ↔ countK k r = 0 := by
  rw [List.isEmpty_iff, ← List.length_eq_zero, countK_filter_length]

lemma any_key_eq_false_iff {α : Type} (l : List (Name × α)) (k : Name) :
    (l.any fun ka => ka.1 == k) = false ↔ countK k l = 0 := by
  unfold countK
  rw [List.countP_eq_zero]
  constructor
  · intro h ka hka hbeq
    have htrue : (l.any fun ka => ka.1 == k) = true :=
      List.any_eq_true.mpr ⟨ka, hka, hbeq⟩
    rw [h] at htrue
    exact Bool.false_ne_true htrue
  · intro h
    cases hcase : l.any fun ka => ka.1 == k with
    | false => rfl
    | true =>
      obtain ⟨ka, hka, hbeq⟩ := List.any_eq_true.mp hcase
      exact absurd hbeq (h ka hka)

lemma countP_mergeF {α β : Type} (r : List (Name × β)) (k : Name)
    (ka : Name × α) :
    ((if (r.filter fun kb => kb.1 == ka.1).isEmpty
        then [(ka.1, ((some ka.2 : Option α), (none : Option β)))]
        else (r.filter fun kb => kb.1 == ka.1).map fun kb =>
          (ka.1, (some ka.2, some kb.2))).countP fun x => x.1 == k)
      = if ka.1 = k then (if countK k r = 0 then 1 else countK k r) else 0 := by
  by_cases hk : ka.1 = k
  · subst hk
    rw [if_pos rfl]
    by_cases hemp : (r.filter fun kb => kb.1 == ka.1).isEmpty = true
    · rw [if_pos hemp]
      have h0 := (filter_isEmpty_iff_countK r ka.1).mp hemp
      rw [h0]
      simp
    · rw [if_neg hemp]
      have hne : countK ka.1 r ≠ 0 := by
        intro h0
        exact hemp ((filter_isEmpty_iff_countK r ka.1).mpr h0)
      rw [if_neg hne, List.countP_map]
      have : ((fun (x : Name × (Option α × Option β)) => x.1 == ka.1)
          ∘ fun kb => (ka.1, (some ka.2, some kb.2)))
          = fun (_ : Name × β) => true := by
        funext kb
        simp
      rw [this, List.countP_true, countK_filter_length]
  · rw [if_neg hk]
    by_cases hemp : (r.filter fun kb => kb.1 == ka.1).isEmpty = true
    · rw [if_pos hemp]
      rw [List.countP_eq_zero]
      intro x hx hbeq
      rcases List.mem_cons.mp hx with rfl | habs
      · simp only [beq_iff_eq] at hbeq
        exact hk hbeq
      · simp at habs
    · rw [if_neg hemp]
      rw [List.countP_eq_zero]
      intro x hx hbeq
      obtain ⟨kb, _, rfl⟩ := List.mem_map.mp hx
      simp only [beq_iff_eq] at hbeq
      exact hk hbeq

lemma countP_mergeLeft {α β : Type} (l : List (Name × α)) (r : List (Name × β))
    (k : Name) :
    ((l.flatMap fun ka =>
        if (r.filter fun kb => kb.1 == ka.1).isEmpty
          then [(ka.1, ((some ka.2 : Option α), (none : Option β)))]
          else (r.filter fun kb => kb.1 == ka.1).map fun kb =>
            (ka.1, (some ka.2, some kb.2))).countP fun x => x.1 == k)
      = countK k l * (if countK k r = 0 then 1 else countK k r) := by
  induction l with
  | nil =>
    rw [List.flatMap_nil, List.countP_nil, countK_def, List.countP_nil]
    ring
  | cons ka l' ih =>
    rw [List.flatMap_cons, List.countP_append, ih, countP_mergeF]
    have hcnt : countK k (ka :: l')
        = countK k l' + if ka.1 = k then 1 else 0 := by
      unfold countK
      rw [List.countP_cons]
      by_cases hk : ka.1 = k
      · simp [hk]
      · simp [hk]
    rw [hcnt]
    by_cases hk : ka.1 = k
    · rw [if_pos hk, if_pos hk]
      ring
    · rw [if_neg hk, if_neg hk]
      ring

lemma countP_mergeRight {α β : Type} (l : List (Name × α)) (r : List (Name × β))
    (k : Name) :
    (((r.filter fun kb => !(l.any fun ka => ka.1 == kb.1)).map fun kb =>
        (kb.1, ((none : Option α), some kb.2))).countP fun x => x.1 == k)
      = if countK k l = 0 then countK k r else 0 := by
  rw [List.countP_map, List.countP_filter]
  by_cases hl : countK k l = 0
  · rw [if_pos hl]
    unfold countK
    apply List.countP_congr
    intro kb _
    simp only [Function.comp_apply, Bool.and_eq_true, beq_iff_eq,
      Bool.not_eq_true']
    constructor
    · intro h
      exact h.1
    · intro h
      refine ⟨h, ?_⟩
      apply (any_key_eq_false_iff l kb.1).mpr
      rw [h]
      exact hl
  · rw [if_neg hl]
    rw [List.countP_eq_zero]
    intro kb _ hsat
    simp only [Function.comp_apply, Bool.and_eq_true, beq_iff_eq,
      Bool.not_eq_true'] at hsat
    have := (any_key_eq_false_iff l kb.1).mp hsat.2
    rw [hsat.1] at this
    exact hl this

lemma countK_outerMerge {α β : Type} (l : List (Name × α))
    (r : List (Name × β)) (k : Name) :
    countK k (outerMerge l r)
      = if countK k l = 0 then countK k r
        else countK k l * (if countK k r = 0 then 1 else countK k r) := by
  unfold outerMerge
  rw [countK_def, List.countP_append]
  have h1 := countP_mergeLeft l r k
  have h2 := countP_mergeRight l r k
  rw [h1, h2]
  by_cases hl : countK k l = 0
  · rw [if_pos hl, if_pos hl, hl]
    ring
  · rw [if_neg hl, if_neg hl]
    ring

lemma outerMerge_mem_left {α β : Type} {l : List (Name × α)}
    {r : List (Name × β)} {k : Name} {v : Option α × Option β}
    (h : (k, v) ∈ outerMerge l r) :
    (∃ a, v.1 = some a ∧ (k, a) ∈ l) ∨ (v.1 = none ∧ countK k l = 0) := by
  unfold outerMerge at h
  rcases List.mem_append.mp h with h | h
  · obtain ⟨ka, hka, hmem⟩ := List.mem_flatMap.mp h
    by_cases hemp : (r.filter fun kb => kb.1 == ka.1).isEmpty = true
    · rw [if_pos hemp] at hmem
      rcases List.mem_cons.mp hmem with heq | habs
      · obtain ⟨hk, hv⟩ := Prod.mk.inj heq
        subst hk
        subst hv
        exact Or.inl ⟨ka.2, rfl, hka⟩
      · simp at habs
    · rw [if_neg hemp] at hmem
      obtain ⟨kb, _, heq⟩ := List.mem_map.mp hmem
      obtain ⟨hk, hv⟩ := Prod.mk.inj heq.symm
      subst hk
      subst hv
      exact Or.inl ⟨ka.2, rfl, hka⟩
  · obtain ⟨kb, hkb, heq⟩ := List.mem_map.mp h
    obtain ⟨hk, hv⟩ := Prod.mk.inj heq.symm
    subst hk
    subst hv
    right
    have hfil := (List.mem_filter.mp hkb).2
    rw [Bool.not_eq_true'] at hfil
    exact ⟨rfl, (any_key_eq_false_iff l kb.1).mp hfil⟩

lemma outerMerge_mem_right {α β : Type} {l : List (Name × α)}
    {r : List (Name × β)} {k : Name} {v : Option α × Option β}
    (h : (k, v) ∈ outerMerge l r) :
    (∃ b', v.2 = some b' ∧ (k, b') ∈ r) ∨ (v.2 = none ∧ countK k r = 0) := by
  unfold outerMerge at h
  rcases List.mem_append.mp h with h | h
  · obtain ⟨ka, hka, hmem⟩ := List.mem_flatMap.mp h
    by_cases hemp : (r.filter fun kb => kb.1 == ka.1).isEmpty = true
    · rw [if_pos hemp] at hmem
      rcases List.mem_cons.mp hmem with heq | habs
      · obtain ⟨hk, hv⟩ := Prod.mk.inj heq
        subst hk
        subst hv
        exact Or.inr ⟨rfl, (filter_isEmpty_iff_countK r ka.1).mp hemp⟩
      · simp at habs
    · rw [if_neg hemp] at hmem
      obtain ⟨kb, hkb, heq⟩ := List.mem_map.mp hmem
      obtain ⟨hk, hv⟩ := Prod.mk.inj heq.symm
      subst hk
      subst hv
      left
      refine ⟨kb.2, rfl, ?_⟩
      have hf := List.mem_filter.mp hkb
      have hkey : kb.1 = ka.1 := by
        simpa using hf.2
      have hr : (kb.1, kb.2) ∈ r := by
        simpa using hf.1
      rw [hkey] at hr
      exact hr
  · obtain ⟨kb, hkb, heq⟩ := List.mem_map.mp h
    obtain ⟨hk, hv⟩ := Prod.mk.inj heq.symm
    subst hk
    subst hv
    left
    refine ⟨kb.2, rfl, ?_⟩
    simpa using (List.mem_filter.mp hkb).1

lemma countK_pos_of_mem {α : Type} {t : List (Name × α)} {k : Name} {v : α}
    (h : (k, v) ∈ t) : countK k t ≠ 0 := by
  unfold countK
  intro h0
  rw [List.countP_eq_zero] at h0
  exact h0 (k, v) h (by simp)

lemma pairsG_nodup (t : List (BindingRow × GeneRow)) : (pairsG t).Nodup := by
  unfold pairsG
  exact List.nodup_dedup _

lemma pairsP_nodup (t : List (BindingRow × PromRow)) : (pairsP t).Nodup := by
  unfold pairsP
  exact List.nodup_dedup _

lemma mem_pairsG {t : List (BindingRow × GeneRow)} {fg : Name × Name} :
    fg ∈ pairsG t ↔ ∃ row ∈ t, pairKeyG row = fg := by
  unfold pairsG
  rw [List.mem_dedup, List.mem_map]

lemma mem_pairsP {t : List (BindingRow × PromRow)} {fg : Name × Name} :
    fg ∈ pairsP t ↔ ∃ row ∈ t, pairKeyP row = fg := by
  unfold pairsP
  rw [List.mem_dedup, List.mem_map]

lemma joinGene_row_left {b : List BindingRow} {p : List GeneRow}
    {row : BindingRow × GeneRow} (h : row ∈ joinGene b p) : row.1 ∈ b := by
  unfold joinGene at h
  obtain ⟨br, hbr, hmem⟩ := List.mem_flatMap.mp h
  obtain ⟨gr, _, heq⟩ := List.mem_map.mp hmem
  rw [← heq]
  exact hbr

lemma joinProm_row_left {b : List BindingRow} {pr : List PromRow}
    {row : BindingRow × PromRow} (h : row ∈ joinProm b pr) : row.1 ∈ b := by
  unfold joinProm at h
  obtain ⟨br, hbr, hmem⟩ := List.mem_flatMap.mp h
  obtain ⟨q, _, heq⟩ := List.mem_map.mp hmem
  rw [← heq]
  exact hbr

lemma longTable_row_left {b : List BindingRow} {p : List GeneRow}
    {row : BindingRow × GeneRow} (h : row ∈ longTable b p) : row.1 ∈ b := by
  unfold longTable at h
  exact joinGene_row_left h

lemma stKey_eq_resolve {x y : Name × Name} (hx : '_' ∉ x.1) (hy : '_' ∉ y.1)
    (h : stKey x.1 x.2 = stKey y.1 y.2) : x = y := by
  obtain ⟨h1, h2⟩ := stKey_inj hx hy h
  exact Prod.ext h1 h2

lemma pairsG_factor_clean {b : List BindingRow} {p : List GeneRow}
    (hb : ∀ br ∈ b, '_' ∉ br.factor) {fg : Name × Name}
    (h : fg ∈ pairsG (longTable b p)) : '_' ∉ fg.1 := by
  obtain ⟨row, hrow, hkey⟩ := mem_pairsG.mp h
  rw [← hkey]
  exact hb row.1 (longTable_row_left hrow)

lemma pairsP_factor_clean {b : List BindingRow} {pr : List PromRow}
    (hb : ∀ br ∈ b, '_' ∉ br.factor) {fg : Name × Name}
    (h : fg ∈ pairsP (joinProm b pr)) : '_' ∉ fg.1 := by
  obtain ⟨row, hrow, hkey⟩ := mem_pairsP.mp h
  rw [← hkey]
  exact hb row.1 (joinProm_row_left hrow)

lemma pairsG_inj {b : List BindingRow} (p : List GeneRow)
    (hb : ∀ br ∈ b, '_' ∉ br.factor) :
    ∀ x ∈ pairsG (longTable b p), ∀ y ∈ pairsG (longTable b p),
      stKey x.1 x.2 = stKey y.1 y.2 → x = y := by
  intro x hx y hy heq
  exact stKey_eq_resolve (pairsG_factor_clean hb hx) (pairsG_factor_clean hb hy) heq

lemma pairsP_inj {b : List BindingRow} (pr : List PromRow)
    (hb : ∀ br ∈ b, '_' ∉ br.factor) :
    ∀ x ∈ pairsP (joinProm b pr), ∀ y ∈ pairsP (joinProm b pr),
      stKey x.1 x.2 = stKey y.1 y.2 → x = y := by
  intro x hx y hy heq
  exact stKey_eq_resolve (pairsP_factor_clean hb hx) (pairsP_factor_clean hb hy) heq

lemma countP_beq_eq_one_of_nodup_mem {α : Type} [BEq α] [LawfulBEq α]
    {l : List α} (hnd : l.Nodup) {a : α} (ha : a ∈ l) :
    l.countP (fun x => x == a) = 1 := by
  induction l with
  | nil => simp at ha
  | cons x xs ih =>
    rw [List.nodup_cons] at hnd
    rw [List.countP_cons]
    by_cases hx : x = a
    · subst hx
      have hzero : xs.countP (fun y => y == x) = 0 := by
        rw [List.countP_eq_zero]
        intro y hy hbeq
        rw [eq_of_beq hbeq] at hy
        exact hnd.1 hy
      simp [hzero]
    · have hnotmem : a ∈ xs := by
        rcases List.mem_cons.mp ha with rfl | h
        · exact absurd rfl hx
        · exact h
      have hfalse : (x == a) = false := by
        simp [hx]
      rw [hfalse]
      simpa using ih hnd.2 hnotmem

lemma keyed_countK_mem {γ : Type} {pairs : List (Name × Name)}
    (v : Name × Name → γ) (hnd : pairs.Nodup)
    (hinj : ∀ x ∈ pairs, ∀ y ∈ pairs, stKey x.1 x.2 = stKey y.1 y.2 → x = y)
    {fg : Name × Name} (hmem : fg ∈ pairs) :
    countK (stKey fg.1 fg.2) (pairs.map fun q => (stKey q.1 q.2, v q)) = 1 := by
  rw [countK_def, List.countP_map]
  have hcongr : pairs.countP
      ((fun x => x.1 == stKey fg.1 fg.2) ∘ fun q => (stKey q.1 q.2, v q))
      = pairs.countP (fun q => q == fg) := by
    apply List.countP_congr
    intro q hq
    simp only [Function.comp_apply, beq_iff_eq]
    constructor
    · intro h
      exact hinj q hq fg hmem h
    · rintro rfl
      rfl
  rw [hcongr]
  exact countP_beq_eq_one_of_nodup_mem hnd hmem

lemma keyed_countK_zero {γ : Type} {pairs : List (Name × Name)}
    (v : Name × Name → γ) {K : Name}
    (hno : ∀ q ∈ pairs, stKey q.1 q.2 ≠ K) :
    countK K (pairs.map fun q => (stKey q.1 q.2, v q)) = 0 := by
  rw [countK_def, List.countP_eq_zero]
  intro x hx hbeq
  obtain ⟨q, hq, rfl⟩ := List.mem_map.mp hx
  simp only [beq_iff_eq] at hbeq
  exact hno q hq hbeq

lemma keyed_mem_value {γ : Type} {pairs : List (Name × Name)}
    {v : Name × Name → γ}
    (hinj : ∀ x ∈ pairs, ∀ y ∈ pairs, stKey x.1 x.2 = stKey y.1 y.2 → x = y)
    {fg : Name × Name} (hmem : fg ∈ pairs) {c : γ}
    (h : (stKey fg.1 fg.2, c) ∈ pairs.map fun q => (stKey q.1 q.2, v q)) :
    c = v fg := by
  obtain ⟨q, hq, heq⟩ := List.mem_map.mp h
  obtain ⟨hk, hc⟩ := Prod.mk.inj heq
  have hqfg : q = fg := hinj q hq fg hmem hk
  rw [← hc, hqfg]

lemma aggRowOf_source (kv : Name ×
    (Option (Option (Option SumCols × Option MaxCols) × Option Nat) × Option ℚ)) :
    (aggRowOf kv).source_target = kv.1 := rfl

lemma aggRowOf_enhancers (kv : Name ×
    (Option (Option (Option SumCols × Option MaxCols) × Option Nat) × Option ℚ)) :
    (aggRowOf kv).enhancers = kv.2.1.bind fun x => x.2 := rfl

lemma aggRowOf_prom (kv : Name ×
    (Option (Option (Option SumCols × Option MaxCols) × Option Nat) × Option ℚ)) :
    (aggRowOf kv).max_binding_in_promoter = kv.2.2.getD 0 := rfl

lemma countST_aggregate (alpha : ℝ) (padding keep1 remove : Nat)
    (b : List BindingRow) (p : List GeneRow) (prom : List PromRow) (k : Name) :
    countST k (aggregate_binding alpha padding keep1 remove b p prom)
      = countK k (mergedTables alpha padding keep1 remove (longTable b p)
          (joinProm b (prom.map upperGeneP))) := by
  unfold countST aggregate_binding
  rw [List.countP_map, countK_def]
  rfl

/-- C6 (amended): provided factor names carry no underscore (so the
`factor_gene` composite keys cannot collide), every (factor, gene) pair
with at least one contributing enhancer in the long-range window appears
exactly once in the final feature table, its `enhancers` column is the
count of contributing rows, and a pair present only in the promoter
aggregation still appears — once, with a nulled `enhancers` column and
its promoter maximum — because all joins are outer joins on
`source_target`. -/
theorem aggregation_completeness (alpha : ℝ) (padding keep1 remove : Nat)
    (b : List BindingRow) (p : List GeneRow) (prom : List PromRow)
    (hb : ∀ br ∈ b, '_' ∉ br.factor) :
    (∀ f g : Name, (∃ row ∈ longTable b p, pairKeyG row = (f, g)) →
        countST (stKey f g)
            (aggregate_binding alpha padding keep1 remove b p prom) = 1
        ∧ ∀ row ∈ aggregate_binding alpha padding keep1 remove b p prom,
            row.source_target = stKey f g →
            row.enhancers = some ((groupG (longTable b p) (f, g)).length))
    ∧ (∀ f g : Name, (¬ ∃ row ∈ longTable b p, pairKeyG row = (f, g)) →
        (∃ row ∈ joinProm b (prom.map upperGeneP), pairKeyP row = (f, g)) →
        countST (stKey f g)
            (aggregate_binding alpha padding keep1 remove b p prom) = 1
        ∧ ∀ row ∈ aggregate_binding alpha padding keep1 remove b p prom,
            row.source_target = stKey f g →
            row.enhancers = none
            ∧ row.max_binding_in_promoter
                = maxQ ((groupP (joinProm b (prom.map upperGeneP)) (f, g)).map
                    fun r => r.1.binding)) := by
  have hinjG := pairsG_inj p hb
  have hinjP := pairsP_inj (prom.map upperGeneP) hb
  constructor
  · intro f g hex
    have hmemG : ((f, g) : Name × Name) ∈ pairsG (longTable b p) :=
      mem_pairsG.mpr hex
    have hS : countK (stKey f g)
        (f_table_sum alpha padding keep1 remove (longTable b p)) = 1 := by
      unfold f_table_sum
      exact keyed_countK_mem _ (pairsG_nodup _) hinjG hmemG
    have hM : countK (stKey f g)
        (f_table_max alpha padding keep1 remove (longTable b p)) = 1 := by
      unfold f_table_max
      exact keyed_countK_mem _ (pairsG_nodup _) hinjG hmemG
    have hC : countK (stKey f g) (sum_enh (longTable b p)) = 1 := by
      unfold sum_enh
      exact keyed_countK_mem _ (pairsG_nodup _) hinjG hmemG
    have hP01 : countK (stKey f g)
          (prom_table (joinProm b (prom.map upperGeneP))) = 0
        ∨ countK (stKey f g)
          (prom_table (joinProm b (prom.map upperGeneP))) = 1 := by
      by_cases hmemP : ((f, g) : Name × Name)
          ∈ pairsP (joinProm b (prom.map upperGeneP))
      · right
        unfold prom_table
        exact keyed_countK_mem _ (pairsP_nodup _) hinjP hmemP
      · left
        unfold prom_table
        apply keyed_countK_zero
        intro q hq heq
        have hqfg : q = (f, g) := stKey_eq_resolve
          (pairsP_factor_clean hb hq) (pairsG_factor_clean hb hmemG) heq
        rw [hqfg] at hq
        exact hmemP hq
    have hm1 : countK (stKey f g)
        (outerMerge (f_table_sum alpha padding keep1 remove (longTable b p))
          (f_table_max alpha padding keep1 remove (longTable b p))) = 1 := by
      rw [countK_outerMerge, hS, hM]
      norm_num
    have hm2 : countK (stKey f g)
        (outerMerge
          (outerMerge (f_table_sum alpha padding keep1 remove (longTable b p))
            (f_table_max alpha padding keep1 remove (longTable b p)))
          (sum_enh (longTable b p))) = 1 := by
      rw [countK_outerMerge, hm1, hC]
      norm_num
    have hm3 : countK (stKey f g)
        (mergedTables alpha padding keep1 remove (longTable b p)
          (joinProm b (prom.map upperGeneP))) = 1 := by
      unfold mergedTables
      rw [countK_outerMerge, hm2]
      rcases hP01 with h0 | h1
      · rw [h0]
        norm_num
      · rw [h1]
        norm_num
    constructor
    · rw [countST_aggregate]
      exact hm3
    · intro row hrow hkey
      unfold aggregate_binding at hrow
      obtain ⟨kv, hkv, rfl⟩ := List.mem_map.mp hrow
      rw [aggRowOf_source] at hkey
      have hkv' : (stKey f g, kv.2) ∈ mergedTables alpha padding keep1 remove
          (longTable b p) (joinProm b (prom.map upperGeneP)) := by
        rw [← hkey]
        simpa using hkv
      unfold mergedTables at hkv'
      rcases outerMerge_mem_left hkv' with ⟨m2v, hm2v, hmemM2⟩ | ⟨_, hzero⟩
      · rcases outerMerge_mem_right hmemM2 with ⟨n, hn, hmemC⟩ | ⟨_, hzeroC⟩
        · have hval : n = (groupG (longTable b p) ((f, g) : Name × Name)).length := by
            unfold sum_enh at hmemC
            exact keyed_mem_value hinjG hmemG hmemC
          rw [aggRowOf_enhancers, hm2v]
          rw [show (some m2v).bind (fun x => x.2) = m2v.2 from rfl, hn, hval]
        · rw [hC] at hzeroC
          exact absurd hzeroC one_ne_zero
      · rw [hm2] at hzero
        exact absurd hzero one_ne_zero
  · intro f g hnex hexP
    have hmemP : ((f, g) : Name × Name)
        ∈ pairsP (joinProm b (prom.map upperGeneP)) := mem_pairsP.mpr hexP
    have hnmemG : ((f, g) : Name × Name) ∉ pairsG (longTable b p) := by
      intro h
      exact hnex (mem_pairsG.mp h)
    have hno : ∀ q ∈ pairsG (longTable b p), stKey q.1 q.2 ≠ stKey f g := by
      intro q hq heq
      have hqfg : q = (f, g) := stKey_eq_resolve
        (pairsG_factor_clean hb hq) (pairsP_factor_clean hb hmemP) heq
      rw [hqfg] at hq
      exact hnmemG hq
    have hS : countK (stKey f g)
        (f_table_sum alpha padding keep1 remove (longTable b p)) = 0 := by
      unfold f_table_sum
      exact keyed_countK_zero _ hno
    have hM : countK (stKey f g)
        (f_table_max alpha padding keep1 remove (longTable b p)) = 0 := by
      unfold f_table_max
      exact keyed_countK_zero _ hno
    have hC : countK (stKey f g) (sum_enh (longTable b p)) = 0 := by
      unfold sum_enh
      exact keyed_countK_zero _ hno
    have hP : countK (stKey f g)
        (prom_table (joinProm b (prom.map upperGeneP))) = 1 := by
      unfold prom_table
      exact keyed_countK_mem _ (pairsP_nodup _) hinjP hmemP
    have hm1 : countK (stKey f g)
        (outerMerge (f_table_sum alpha padding keep1 remove (longTable b p))
          (f_table_max alpha padding keep1 remove (longTable b p))) = 0 := by
      rw [countK_outerMerge, hS, hM]
      norm_num
    have hm2 : countK (stKey f g)
        (outerMerge
          (outerMerge (f_table_sum alpha padding keep1 remove (longTable b p))
            (f_table_max alpha padding keep1 remove (longTable b p)))
          (sum_enh (longTable b p))) = 0 := by
      rw [countK_outerMerge, hm1, hC]
      norm_num
    have hm3 : countK (stKey f g)
        (mergedTables alpha padding keep1 remove (longTable b p)
          (joinProm b (prom.map upperGeneP))) = 1 := by
      unfold mergedTables
      rw [countK_outerMerge, hm2, hP]
      norm_num
    constructor
    · rw [countST_aggregate]
      exact hm3
    · intro row hrow hkey
      unfold aggregate_binding at hrow
      obtain ⟨kv, hkv, rfl⟩ := List.mem_map.mp hrow
      rw [aggRowOf_source] at hkey
      have hkv' : (stKey f g, kv.2) ∈ mergedTables alpha padding keep1 remove
          (longTable b p) (joinProm b (prom.map upperGeneP)) := by
        rw [← hkey]
        simpa using hkv
      unfold mergedTables at hkv'
      have henh : kv.2.1 = none := by
        rcases outerMerge_mem_left hkv' with ⟨m2v, hm2v, hmemM2⟩ | ⟨hnone, _⟩
        · exfalso
          have := countK_pos_of_mem hmemM2
          exact this hm2
        · exact hnone
      constructor
      · rw [aggRowOf_enhancers, henh]
        rfl
      · rcases outerMerge_mem_right hkv' with ⟨q, hq, hmemPt⟩ | ⟨_, hzeroP⟩
        · have hval : q = maxQ
              ((groupP (joinProm b (prom.map upperGeneP)) ((f, g) : Name × Name)).map
                fun r => r.1.binding) := by
            unfold prom_table at hmemPt
            exact keyed_mem_value hinjP hmemP hmemPt
          rw [aggRowOf_prom, hq, hval]
          rfl
        · rw [hP] at hzeroP
          exact absurd hzeroP one_ne_zero

/-- Witness for `aggregation_completeness`: the collision-free pair
(`A`, `G`) with one contributing enhancer appears exactly once. -/
theorem aggregation_completeness_witness :
    countST (stKey "A".toList "G".toList)
        (aggregate_binding 1 100000 5000 2000 exBindW exGeneW []) = 1 :=
  ((aggregation_completeness 1 100000 5000 2000 exBindW exGeneW []
      (by decide)).1 "A".toList "G".toList
    ⟨(⟨"A".toList, "e1".toList, 1⟩, ⟨"G".toList, "e1".toList, 10⟩),
      by decide, by decide⟩).1

/-- Counterexample to C6 as stated: factors `A_B` and `A` with genes `C`
and `B_C` collide on the composite key `A_B_C`; the pair (`A_B`, `C`)
has one contributing enhancer but the final table does not contain
exactly one row for it — the colliding outer merges multiply the rows. -/
theorem composite_key_collision :
    (∃ row ∈ longTable exBind6 exGene6,
        pairKeyG row = ("A_B".toList, "C".toList))
    ∧ countST (stKey "A_B".toList "C".toList)
        (aggregate_binding 1 100000 5000 2000 exBind6 exGene6 []) ≠ 1 := by
  constructor
  · exact ⟨(⟨"A_B".toList, "e1".toList, 1⟩, ⟨"C".toList, "e1".toList, 10⟩),
      by decide, by decide⟩
  · decide

end Ananse
